import Mathlib

/-
Verification of the hex-game engine: a shallow embedding of the board
(graph.h, node.h, position.h), the win-detection search (hex_game.h,
checkWin and findPath), and the Monte Carlo move search (hex_game.h,
testPlay, testPlay_threaded, computerPlay), together with theorems about
the specified behaviour.

Modelling conventions:
- Coordinate (uint8_t in position.h) is modelled as Nat; all arithmetic
  on coordinates in the source is done after integral promotion to int
  and never overflows, and board sizes are at most 11, so Nat values
  coincide with the C++ values.
- The per-node connection vector built by the Node constructor (node.h)
  is a pure function of the node position and the board size, and is
  never mutated afterwards; getConnections is therefore modelled by
  recomputing that list (definition connections below).
- The node grid (std::vector of std::vector of Node) is modelled as a
  total function Nat -> Nat -> Node; getNode carries the bounds assert
  of graph.h by returning a default node out of range (no in-repo call
  path reaches getNode out of range).
- ProbabilityValue (float) is modelled as Rat; the quantities divided
  are small integers, and no theorem below depends on rounding.
- rand() is modelled by an explicit stream f : Nat -> Nat together with
  a position counter; each call reads the stream and advances the
  counter.  The C++ evaluation order of the two rand() calls inside
  addPlay(player, rand() % size, rand() % size) is unspecified; the
  model fixes row-first order, and no theorem depends on the choice.
- The unbounded retry loop that fills the board in testPlay, and the
  recursion of findPath, are given explicit fuel.  findPath recursion
  depth is bounded by the number of unmarked nodes, so the fuel
  m_size * m_size + 1 used by checkWin is never exhausted (proved
  below); the fill loop is partial in the source as well (it spins if
  rand never hits a free cell), hence the Option result.
- std::sort in computerPlay is modelled by a parameter sortImpl;
  theorems assume only what the C++ standard guarantees (the output is
  a permutation of the input; order among equal keys is unspecified).
-/

/-- Player enumeration from hex_game.h. -/
inductive Player where
  | FIRST
  | SECOND
  deriving DecidableEq, Repr

/-- NodeColour enumeration from node.h; WHITE is the initial (empty) state. -/
inductive NodeColour where
  | WHITE
  | RED
  | GREEN
  deriving DecidableEq, Repr

/-- Mutable per-node state from node.h: the colour and the traverse mark.
The position stored in a node always equals its grid coordinates, and the
connection list is the pure function of position and size given by
connections below, so neither is stored here. -/
structure Node where
  colour : NodeColour
  traversed : Bool
  deriving DecidableEq, Repr

/-- Connection list built by the Node constructor (node.h lines 42-60):
scan the whole board in row-major order and keep every cell whose offset
(dRow, dCol) has both components of absolute value at most 1, excluding
(0,0), (-1,-1) and (1,1). -/
def connections (board row col : ℕ) : List (ℕ × ℕ) :=
  (List.range board).flatMap (fun (row_idx : ℕ) =>
    (List.range board).filterMap (fun (col_idx : ℕ) =>
      let dRow : ℤ := (row_idx : ℤ) - (row : ℤ)
      let dCol : ℤ := (col_idx : ℤ) - (col : ℤ)
      if (dRow = -1 ∧ dCol = -1) ∨ (dRow = 1 ∧ dCol = 1) then none
      else if (dRow.natAbs < 2 ∧ dCol.natAbs < 2) ∧ ¬(row_idx = row ∧ col_idx = col) then
        some (row_idx, col_idx)
      else none))

/-- State of a HexGame object: the Graph base part (m_size, m_tree from
graph.h) and the play counters of hex_game.h.  m_limits is always
(m_size - 1, m_size - 1) and is inlined where used. -/
structure HexGame where
  m_size : ℕ
  m_tree : ℕ → ℕ → Node
  m_play_total : ℕ
  m_play_maximum : ℕ

/-- The HexGame constructor: every node starts WHITE with a clear
traverse mark (the value-initialised state of the grid), m_play_total 0
and m_play_maximum size * size. -/
def mkHexGame (size : ℕ) : HexGame :=
  { m_size := size
    m_tree := fun _ _ => { colour := NodeColour.WHITE, traversed := false }
    m_play_total := 0
    m_play_maximum := size * size }

/-- Graph::getNode.  The source asserts row and col are in range; the
model totalises with a default node, and no in-repo call path reaches
the default. -/
def getNode (st : HexGame) (row col : ℕ) : Node :=
  if row < st.m_size ∧ col < st.m_size then st.m_tree row col
  else { colour := NodeColour.WHITE, traversed := false }

/-- Graph::isNodeColour. -/
def isNodeColour (st : HexGame) (colour : NodeColour) (row col : ℕ) : Bool :=
  (getNode st row col).colour == colour

/-- Graph::isNodeFree. -/
def isNodeFree (st : HexGame) (row col : ℕ) : Bool :=
  isNodeColour st NodeColour.WHITE row col

/-- Graph::setNode: update the colour of one cell. -/
def setNode (st : HexGame) (colour : NodeColour) (row col : ℕ) : HexGame :=
  { st with
    m_tree := fun r c =>
      if r = row ∧ c = col then { st.m_tree r c with colour := colour } else st.m_tree r c }

/-- Graph::setTraverse: set the traverse mark of one cell. -/
def setTraverse (st : HexGame) (row col : ℕ) : HexGame :=
  { st with
    m_tree := fun r c =>
      if r = row ∧ c = col then { st.m_tree r c with traversed := true } else st.m_tree r c }

/-- Graph::clearTraverse: clear the traverse mark of one cell. -/
def clearTraverse (st : HexGame) (row col : ℕ) : HexGame :=
  { st with
    m_tree := fun r c =>
      if r = row ∧ c = col then { st.m_tree r c with traversed := false } else st.m_tree r c }

/-- Graph::getTraverse. -/
def getTraverse (st : HexGame) (row col : ℕ) : Bool :=
  (getNode st row col).traversed

/-- HexGame::convertPlayer: FIRST plays GREEN, SECOND plays RED. -/
def convertPlayer (player : Player) : NodeColour :=
  match player with
  | Player.FIRST => NodeColour.GREEN
  | Player.SECOND => NodeColour.RED

/-- HexGame::addPlay: occupy the cell and bump m_play_total if the cell
is free, otherwise report failure and change nothing. -/
def addPlay (st : HexGame) (player : Player) (row col : ℕ) : Bool × HexGame :=
  if (getNode st row col).colour = NodeColour.WHITE then
    (true, { setNode st (convertPlayer player) row col with m_play_total := st.m_play_total + 1 })
  else (false, st)

/-- HexGame::checkRangeSingle. -/
def checkRangeSingle (st : HexGame) (input : ℕ) : Bool :=
  decide (input < st.m_size)

/-- HexGame::checkInputRange. -/
def checkInputRange (st : HexGame) (row col : ℕ) : Bool :=
  checkRangeSingle st row && checkRangeSingle st col

/-- HexGame::playInterface: range-check the coordinates, then delegate
to addPlay. -/
def playInterface (st : HexGame) (player : Player) (row col : ℕ) : Bool × HexGame :=
  if checkInputRange st row col then addPlay st player row col else (false, st)

/-- HexGame::clearAllTraverse: clear the traverse mark of every cell of
the grid, by the same double loop as the source. -/
def clearAllTraverse (st : HexGame) : HexGame :=
  (List.range st.m_size).foldl
    (fun s row_idx =>
      (List.range st.m_size).foldl (fun s2 col_idx => clearTraverse s2 row_idx col_idx) s)
    st

/-- HexGame::findPath (hex_game.h lines 447-474): scan the connection
net; on a same-coloured border node return true at once (the break in
the source); on a same-coloured unmarked node, mark it and recurse into
its connections, then continue with the rest of the net, or-ing the
results.  The compare() lambda of the source reads the column of the
node and m_limits for GREEN, the row for RED; m_limits is
(m_size - 1, m_size - 1).  The recursion depth of the source is bounded
by the number of unmarked nodes; fuel makes that bound explicit. -/
def findPath (fuel : ℕ) (st : HexGame) (colour : NodeColour) (net : List (ℕ × ℕ)) :
    Bool × HexGame :=
  match fuel, net with
  | 0, _ => (false, st)
  | _ + 1, [] => (false, st)
  | f + 1, node :: rest =>
    let temp := getNode st node.1 node.2
    let result : ℕ × ℕ :=
      if colour = NodeColour.GREEN then (node.2, st.m_size - 1) else (node.1, st.m_size - 1)
    if result.1 = result.2 ∧ temp.colour = colour then (true, st)
    else if temp.colour = colour ∧ temp.traversed = false then
      let st1 := setTraverse st node.1 node.2
      let res1 := findPath f st1 colour (connections st.m_size node.1 node.2)
      let res2 := findPath (f + 1) res1.2 colour rest
      (res1.1 || res2.1, res2.2)
    else findPath (f + 1) st colour rest
  termination_by (fuel, net.length)

/-- Seed loop of HexGame::checkWin (hex_game.h lines 260-273): for idx
from 0 to m_size - 1, seed the search at (idx, 0) for FIRST and (0, idx)
for SECOND whenever that cell holds the colour and is unmarked, breaking
out on the first success. -/
def seedLoop (fuel : ℕ) (colour : NodeColour) (player : Player) :
    List ℕ → HexGame → Bool × HexGame
  | [], st => (false, st)
  | idx :: rest, st =>
    let row := match player with | Player.FIRST => idx | Player.SECOND => 0
    let col := match player with | Player.FIRST => 0 | Player.SECOND => idx
    if (getNode st row col).colour = colour ∧ (getNode st row col).traversed = false then
      let st1 := setTraverse st row col
      let res := findPath fuel st1 colour (connections st.m_size row col)
      if res.1 then (true, res.2)
      else seedLoop fuel colour player rest res.2
    else seedLoop fuel colour player rest st

/-- HexGame::checkWin: run the seed loop, then clear every traverse mark
before returning. -/
def checkWin (st : HexGame) (player : Player) : Bool × HexGame :=
  let colour := convertPlayer player
  let res := seedLoop (st.m_size * st.m_size + 1) colour player (List.range st.m_size) st
  (res.1, clearAllTraverse res.2)

/-- Toggle of the player variable inside testPlay. -/
def togglePlayer (player : Player) : Player :=
  match player with
  | Player.FIRST => Player.SECOND
  | Player.SECOND => Player.FIRST

/-- Board-filling loop of HexGame::testPlay (hex_game.h lines 201-209):
while m_play_total < m_play_maximum, draw a row and a column from the
random stream and attempt addPlay; on success the player toggles.  The
returned trace records every successful placement in order (ghost
instrumentation; it does not influence the state).  The source loop
spins forever if rand never hits a free cell, hence the fuel. -/
def randomFill (fuel : ℕ) (st : HexGame) (player : Player) (f : ℕ → ℕ) (pos : ℕ) :
    Option (HexGame × ℕ × List (Player × ℕ × ℕ)) :=
  if st.m_play_total < st.m_play_maximum then
    match fuel with
    | 0 => none
    | fuel + 1 =>
      let row := f pos % st.m_size
      let col := f (pos + 1) % st.m_size
      let res := addPlay st player row col
      if res.1 then
        match randomFill fuel res.2 (togglePlayer player) f (pos + 2) with
        | none => none
        | some (st2, pos2, trace) => some (st2, pos2, (player, row, col) :: trace)
      else randomFill fuel res.2 player f (pos + 2)
  else some (st, pos, [])

/-- Playout loop of HexGame::testPlay (hex_game.h lines 196-221): run the
given number of playouts, each starting from the same saved state (the
source restores m_tree and m_play_total from temp at the end of every
iteration, and resets player to SECOND), counting the playouts in which
checkWin(SECOND) holds on the filled board.  Returns the win count and
the final stream position. -/
def testPlayLoop (plays : ℕ) (st : HexGame) (f : ℕ → ℕ) (pos : ℕ) (fillFuel : ℕ) :
    Option (ℕ × ℕ) :=
  match plays with
  | 0 => some (0, pos)
  | plays + 1 =>
    match randomFill fillFuel st Player.SECOND f pos with
    | none => none
    | some (st2, pos2, _) =>
      let win := (checkWin st2 Player.SECOND).1
      match testPlayLoop plays st f pos2 fillFuel with
      | none => none
      | some (wins, pos3) => some ((if win then wins + 1 else wins), pos3)

/-- Probability record from probability.h: a value (float, modelled as
Rat) and the coordinates of the candidate move. -/
structure Probability where
  m_value : ℚ
  m_row : ℕ
  m_col : ℕ
  deriving DecidableEq, Repr

/-- Playout limit of testPlay: cn_MAXIMUM_PLAY_LIMIT (150) for sizes up
to 5, reduced by 10 for each size step above 6.  For the sizes the game
admits (at most 11) the C++ int value is the same as this Nat value. -/
def playLimit (size : ℕ) : ℕ :=
  if size > 5 then 150 - 10 * (size - 6) else 150

/-- HexGame::testPlay: place the candidate move for SECOND, then run
limit playouts, where limit is 150 for sizes up to 5 and shrinks by 10
per size step above 6.  The while (count++ < limit) loop leaves count at
limit + 1 when it exits, and the source divides the win count by count,
so the returned value is wins / (limit + 1).  The returned state is the
saved state temp (candidate placed), which the source restores at the
end of the last iteration. -/
def testPlay (fillFuel : ℕ) (st : HexGame) (row_idx col_idx : ℕ) (f : ℕ → ℕ) (pos : ℕ) :
    Option (Probability × HexGame × ℕ) :=
  let st0 := (addPlay st Player.SECOND row_idx col_idx).2
  let limit : ℕ := playLimit st0.m_size
  match testPlayLoop limit st0 f pos fillFuel with
  | none => none
  | some (wins, pos2) =>
    some ({ m_value := (wins : ℚ) / (limit + 1), m_row := row_idx, m_col := col_idx }, st0, pos2)

/-- HexGame::averageResults: arithmetic mean of the probability values,
with the coordinates of the first entry. -/
def averageResults (results : List Probability) : Probability :=
  let total : ℚ := (results.map Probability.m_value).sum
  match results with
  | [] => { m_value := 0, m_row := 0, m_col := 0 }
  | first :: _ => { m_value := total / results.length, m_row := first.m_row, m_col := first.m_col }

/-- Collect a list of Option results, failing if any fails (used to
model a batch of computations that all run to completion). -/
def optionMapList (f : α → Option β) : List α → Option (List β)
  | [] => some []
  | x :: xs =>
    match f x, optionMapList f xs with
    | some y, some ys => some (y :: ys)
    | _, _ => none

/-- HexGame::testPlay_threaded: ten copies of the current game each run
testPlay for the same candidate in their own thread; the global rand
stream is consumed by the threads in an unspecified interleaving, so
each thread sees its own arbitrary stream.  The results are averaged. -/
def testPlay_threaded (fillFuel : ℕ) (st : HexGame) (row_idx col_idx : ℕ)
    (streams : ℕ → ℕ → ℕ) : Option Probability :=
  match optionMapList (fun i => testPlay fillFuel st row_idx col_idx (streams i) 0)
      (List.range 10) with
  | none => none
  | some results => some (averageResults (results.map (fun r => r.1)))

/-- Free-cell enumeration of HexGame::computerPlay (hex_game.h lines
97-107): row-major scan keeping the cells for which isNodeFree holds. -/
def freeCells (st : HexGame) : List (ℕ × ℕ) :=
  (List.range st.m_size).flatMap (fun row_idx =>
    (List.range st.m_size).filterMap (fun col_idx =>
      if isNodeFree st row_idx col_idx then some (row_idx, col_idx) else none))

/-- HexGame::computerPlay: score every free cell with testPlay_threaded
(the scoring works on clones and the source restores m_tree and
m_play_total after each candidate, so the board observed by every
candidate is the initial one), sort the scores with std::sort and
compareProbability, and apply the move of the first element.  sortImpl
abstracts std::sort: the standard only guarantees that the output is a
sorted permutation of the input, and nothing about the order of equal
keys.  An empty candidate list makes the source read outputs[0] out of
bounds (documented precondition violation), modelled as none. -/
def computerPlay (fillFuel : ℕ) (st : HexGame) (streams : ℕ × ℕ → ℕ → ℕ → ℕ)
    (sortImpl : List Probability → List Probability) : Option HexGame :=
  match optionMapList (fun rc => testPlay_threaded fillFuel st rc.1 rc.2 (streams rc))
      (freeCells st) with
  | none => none
  | some outputs =>
    match sortImpl outputs with
    | [] => none
    | best :: _ => some (addPlay st Player.SECOND best.m_row best.m_col).2

/-! ### Basic state lemmas -/

theorem HexGame.ext2 {st st2 : HexGame} (hs : st.m_size = st2.m_size)
    (ht : ∀ r c, st.m_tree r c = st2.m_tree r c)
    (hp : st.m_play_total = st2.m_play_total)
    (hm : st.m_play_maximum = st2.m_play_maximum) : st = st2 := by
  cases st
  cases st2
  simp only [HexGame.mk.injEq]
  exact ⟨hs, funext fun r => funext fun c => ht r c, hp, hm⟩

theorem m_size_setNode (st : HexGame) (colour : NodeColour) (row col : ℕ) :
    (setNode st colour row col).m_size = st.m_size := rfl

theorem m_size_setTraverse (st : HexGame) (row col : ℕ) :
    (setTraverse st row col).m_size = st.m_size := rfl

theorem m_size_clearTraverse (st : HexGame) (row col : ℕ) :
    (clearTraverse st row col).m_size = st.m_size := rfl

theorem tree_setTraverse (st : HexGame) (row col r c : ℕ) :
    (setTraverse st row col).m_tree r c =
      if r = row ∧ c = col then { st.m_tree r c with traversed := true } else st.m_tree r c := rfl

theorem tree_setNode (st : HexGame) (colour : NodeColour) (row col r c : ℕ) :
    (setNode st colour row col).m_tree r c =
      if r = row ∧ c = col then { st.m_tree r c with colour := colour } else st.m_tree r c := rfl

theorem tree_clearTraverse (st : HexGame) (row col r c : ℕ) :
    (clearTraverse st row col).m_tree r c =
      if r = row ∧ c = col then { st.m_tree r c with traversed := false } else st.m_tree r c := rfl

theorem colour_setTraverse (st : HexGame) (row col r c : ℕ) :
    ((setTraverse st row col).m_tree r c).colour = (st.m_tree r c).colour := by
  rw [tree_setTraverse]
  split <;> rfl

theorem colour_clearTraverse (st : HexGame) (row col r c : ℕ) :
    ((clearTraverse st row col).m_tree r c).colour = (st.m_tree r c).colour := by
  rw [tree_clearTraverse]
  split <;> rfl

/-- Inner column loop of clearAllTraverse, fully characterised. -/
theorem foldl_clearTraverse_col (l : List ℕ) (row : ℕ) (st : HexGame) :
    l.foldl (fun s2 col_idx => clearTraverse s2 row col_idx) st =
      { st with
        m_tree := fun a b =>
          if a = row ∧ b ∈ l then { st.m_tree a b with traversed := false }
          else st.m_tree a b } := by
  induction l generalizing st with
  | nil =>
    refine HexGame.ext2 rfl ?_ rfl rfl
    intro a b
    simp
  | cons c l ih =>
    simp only [List.foldl_cons]
    rw [ih]
    refine HexGame.ext2 rfl ?_ rfl rfl
    intro a b
    simp only [tree_clearTraverse, List.mem_cons]
    by_cases ha : a = row
    · subst ha
      by_cases hbc : b = c
      · subst hbc
        by_cases hbl : b ∈ l <;> simp [hbl]
      · by_cases hbl : b ∈ l <;> simp [hbc, hbl]
    · simp [ha]

/-- Outer row loop of clearAllTraverse, fully characterised. -/
theorem foldl_clearTraverse_rows (rows : List ℕ) (cols : List ℕ) (st : HexGame) :
    rows.foldl (fun s row_idx => cols.foldl (fun s2 col_idx => clearTraverse s2 row_idx col_idx) s) st =
      { st with
        m_tree := fun a b =>
          if a ∈ rows ∧ b ∈ cols then { st.m_tree a b with traversed := false }
          else st.m_tree a b } := by
  induction rows generalizing st with
  | nil =>
    refine HexGame.ext2 rfl ?_ rfl rfl
    intro a b
    simp
  | cons r rows ih =>
    simp only [List.foldl_cons]
    rw [foldl_clearTraverse_col, ih]
    refine HexGame.ext2 rfl ?_ rfl rfl
    intro a b
    simp only [List.mem_cons]
    by_cases hb : b ∈ cols
    · by_cases har : a = r
      · subst har
        by_cases haro : a ∈ rows <;> simp [hb, haro]
      · by_cases haro : a ∈ rows <;> simp [hb, har, haro]
    · simp [hb]

theorem clearAllTraverse_eq (st : HexGame) :
    clearAllTraverse st =
      { st with
        m_tree := fun a b =>
          if a < st.m_size ∧ b < st.m_size then { st.m_tree a b with traversed := false }
          else st.m_tree a b } := by
  unfold clearAllTraverse
  rw [foldl_clearTraverse_rows]
  refine HexGame.ext2 rfl ?_ rfl rfl
  intro a b
  simp [List.mem_range]

theorem m_size_clearAllTraverse (st : HexGame) : (clearAllTraverse st).m_size = st.m_size := by
  rw [clearAllTraverse_eq]

theorem tree_clearAllTraverse (st : HexGame) (r c : ℕ) :
    (clearAllTraverse st).m_tree r c =
      if r < st.m_size ∧ c < st.m_size then { st.m_tree r c with traversed := false }
      else st.m_tree r c := by
  rw [clearAllTraverse_eq]

/-! ### The adjacency model (node.h) -/

/-- The six hex offsets of the specification. -/
def sixOffsets : List (ℤ × ℤ) := [(-1, 0), (1, 0), (0, -1), (0, 1), (-1, 1), (1, -1)]

/-- Membership in the connection list built by the Node constructor is
exactly: in bounds and at one of the six offsets. -/
theorem mem_connections (board row col r c : ℕ) :
    (r, c) ∈ connections board row col ↔
      r < board ∧ c < board ∧ ((r : ℤ) - row, (c : ℤ) - col) ∈ sixOffsets := by
  unfold connections
  simp only [List.mem_flatMap, List.mem_filterMap, List.mem_range]
  constructor
  · rintro ⟨a, ha, b, hb, h⟩
    split at h
    · simp at h
    · split at h
      · rename_i hne hyes
        simp only [Option.some.injEq, Prod.mk.injEq] at h
        obtain ⟨rfl, rfl⟩ := h
        refine ⟨ha, hb, ?_⟩
        simp only [sixOffsets, List.mem_cons, Prod.mk.injEq, List.not_mem_nil, or_false]
        omega
      · simp at h
  · rintro ⟨hr, hc, hoff⟩
    refine ⟨r, hr, c, hc, ?_⟩
    simp only [sixOffsets, List.mem_cons, Prod.mk.injEq, List.not_mem_nil, or_false] at hoff
    have h1 : ¬(((r : ℤ) - row = -1 ∧ (c : ℤ) - col = -1) ∨ ((r : ℤ) - row = 1 ∧ (c : ℤ) - col = 1)) := by
      omega
    have h2 : (((r : ℤ) - row).natAbs < 2 ∧ ((c : ℤ) - col).natAbs < 2) ∧ ¬(r = row ∧ c = col) := by
      omega
    simp only [h1, h2, if_false, if_true, if_neg h1, if_pos h2]
    simp

/-- Hex adjacency as a relation on coordinates: six-offset neighbourhood. -/
def adjacent (r c r2 c2 : ℕ) : Prop :=
  ((r2 : ℤ) - r, (c2 : ℤ) - c) ∈ sixOffsets

instance (r c r2 c2 : ℕ) : Decidable (adjacent r c r2 c2) := by
  unfold adjacent
  infer_instance

theorem adjacent_symm {r c r2 c2 : ℕ} (h : adjacent r c r2 c2) : adjacent r2 c2 r c := by
  simp only [adjacent, sixOffsets, List.mem_cons, Prod.mk.injEq, List.not_mem_nil, or_false] at *
  omega

theorem mem_connections_iff_adjacent (board row col r c : ℕ) :
    (r, c) ∈ connections board row col ↔ r < board ∧ c < board ∧ adjacent row col r c := by
  rw [mem_connections]
  rfl

set_option maxHeartbeats 4000000 in
/-- C5: for every board size N in [3,11] and every cell, the connection
list built at construction contains exactly the in-bounds cells at the
six offsets; consequently interior cells have 6 neighbours, non-corner
edge cells 4, corner cells 2 or 3, and adjacency is symmetric between
cells of the board. -/
theorem connections_six_offset_spec (N : ℕ) (h3 : 3 ≤ N) (h11 : N ≤ 11) :
    (∀ row col r c : ℕ, (r, c) ∈ connections N row col ↔
        r < N ∧ c < N ∧ ((r : ℤ) - row, (c : ℤ) - col) ∈ sixOffsets)
    ∧ (∀ row col r c : ℕ, row < N → col < N → r < N → c < N →
        ((r, c) ∈ connections N row col ↔ (row, col) ∈ connections N r c))
    ∧ (∀ row, row < N → ∀ col, col < N →
        (0 < row ∧ row < N - 1 ∧ 0 < col ∧ col < N - 1 →
          (connections N row col).length = 6))
    ∧ (∀ row, row < N → ∀ col, col < N →
        ((row = 0 ∨ row = N - 1 ∨ col = 0 ∨ col = N - 1) ∧
          ¬((row = 0 ∨ row = N - 1) ∧ (col = 0 ∨ col = N - 1)) →
          (connections N row col).length = 4))
    ∧ (∀ row, row < N → ∀ col, col < N →
        ((row = 0 ∨ row = N - 1) ∧ (col = 0 ∨ col = N - 1) →
          (connections N row col).length = 2 ∨ (connections N row col).length = 3)) := by
  refine ⟨fun row col r c => mem_connections N row col r c, ?_, ?_⟩
  · intro row col r c _ _ _ _
    rw [mem_connections, mem_connections]
    simp only [sixOffsets, List.mem_cons, Prod.mk.injEq, List.not_mem_nil, or_false]
    constructor
    · rintro ⟨h1, h2, h3⟩
      exact ⟨by assumption, by assumption, by omega⟩
    · rintro ⟨h1, h2, h3⟩
      exact ⟨by assumption, by assumption, by omega⟩
  · interval_cases N <;> exact ⟨by decide, by decide, by decide⟩

/-! ### addPlay and playInterface -/

theorem addPlay_success {st : HexGame} {player : Player} {row col : ℕ}
    (h : (getNode st row col).colour = NodeColour.WHITE) :
    addPlay st player row col =
      (true, { setNode st (convertPlayer player) row col with
                m_play_total := st.m_play_total + 1 }) := by
  rw [addPlay, if_pos h]

theorem addPlay_fail {st : HexGame} {player : Player} {row col : ℕ}
    (h : ¬(getNode st row col).colour = NodeColour.WHITE) :
    addPlay st player row col = (false, st) := by
  rw [addPlay, if_neg h]

theorem m_size_addPlay (st : HexGame) (player : Player) (row col : ℕ) :
    (addPlay st player row col).2.m_size = st.m_size := by
  rw [addPlay]
  split <;> rfl

theorem m_play_maximum_addPlay (st : HexGame) (player : Player) (row col : ℕ) :
    (addPlay st player row col).2.m_play_maximum = st.m_play_maximum := by
  rw [addPlay]
  split <;> rfl

theorem tree_addPlay (st : HexGame) (player : Player) (row col r c : ℕ) :
    (addPlay st player row col).2.m_tree r c =
      if (getNode st row col).colour = NodeColour.WHITE ∧ r = row ∧ c = col then
        { st.m_tree r c with colour := convertPlayer player }
      else st.m_tree r c := by
  by_cases h : (getNode st row col).colour = NodeColour.WHITE
  · rw [addPlay_success h]
    show (setNode st (convertPlayer player) row col).m_tree r c = _
    rw [tree_setNode]
    by_cases hrc : r = row ∧ c = col
    · rw [if_pos hrc, if_pos ⟨h, hrc⟩]
    · rw [if_neg hrc, if_neg (by tauto)]
  · rw [addPlay_fail h, if_neg (by tauto)]

theorem traversed_addPlay (st : HexGame) (player : Player) (row col r c : ℕ) :
    ((addPlay st player row col).2.m_tree r c).traversed = (st.m_tree r c).traversed := by
  rw [tree_addPlay]
  split <;> rfl

theorem m_play_total_addPlay (st : HexGame) (player : Player) (row col : ℕ) :
    (addPlay st player row col).2.m_play_total =
      if (getNode st row col).colour = NodeColour.WHITE then st.m_play_total + 1
      else st.m_play_total := by
  by_cases h : (getNode st row col).colour = NodeColour.WHITE
  · rw [addPlay_success h, if_pos h]
  · rw [addPlay_fail h, if_neg h]

theorem addPlay_fst (st : HexGame) (player : Player) (row col : ℕ) :
    (addPlay st player row col).1 =
      decide ((getNode st row col).colour = NodeColour.WHITE) := by
  by_cases h : (getNode st row col).colour = NodeColour.WHITE
  · rw [addPlay_success h]
    simp [h]
  · rw [addPlay_fail h]
    simp [h]

/-- C3: the public move operation playInterface returns true and colours
the target cell with the moving player's colour exactly when both
coordinates are less than the board size and the target cell is Empty
(WHITE); in every other case it returns false and leaves every cell (in
fact the whole state) unchanged. -/
theorem playInterface_spec (st : HexGame) (player : Player) (row col : ℕ) :
    ((playInterface st player row col).1 = true ↔
      row < st.m_size ∧ col < st.m_size ∧ (st.m_tree row col).colour = NodeColour.WHITE)
    ∧ ((playInterface st player row col).1 = true →
        (((playInterface st player row col).2.m_tree row col).colour = convertPlayer player ∧
          ∀ r c : ℕ, ¬(r = row ∧ c = col) →
            (playInterface st player row col).2.m_tree r c = st.m_tree r c))
    ∧ ((playInterface st player row col).1 = false →
        (playInterface st player row col).2 = st) := by
  by_cases hr : row < st.m_size
  · by_cases hc : col < st.m_size
    · have hrange : checkInputRange st row col = true := by
        simp [checkInputRange, checkRangeSingle, hr, hc]
      have hpi : playInterface st player row col = addPlay st player row col := by
        rw [playInterface, if_pos hrange]
      have hget : getNode st row col = st.m_tree row col := by
        rw [getNode, if_pos ⟨hr, hc⟩]
      by_cases hw : (st.m_tree row col).colour = NodeColour.WHITE
      · have hw2 : (getNode st row col).colour = NodeColour.WHITE := by rw [hget]; exact hw
        refine ⟨by simp [hpi, addPlay_fst, hw2, hr, hc, hw], fun _ => ⟨?_, ?_⟩, ?_⟩
        · rw [hpi, tree_addPlay, if_pos ⟨hw2, rfl, rfl⟩]
        · intro r c hrc
          rw [hpi, tree_addPlay, if_neg (by tauto)]
        · intro hfalse
          rw [hpi, addPlay_fst] at hfalse
          simp [hw2] at hfalse
      · have hw2 : ¬(getNode st row col).colour = NodeColour.WHITE := by rw [hget]; exact hw
        refine ⟨by simp [hpi, addPlay_fst, hw2, hw], fun htrue => ?_, fun _ => ?_⟩
        · rw [hpi, addPlay_fst] at htrue
          simp [hw2] at htrue
        · rw [hpi, addPlay_fail hw2]
    · have hrange : checkInputRange st row col = false := by
        simp [checkInputRange, checkRangeSingle, hc]
      have hpi : playInterface st player row col = (false, st) := by
        rw [playInterface, hrange]
        simp
      rw [hpi]
      exact ⟨by simp [hc], by simp, fun _ => rfl⟩
  · have hrange : checkInputRange st row col = false := by
      simp [checkInputRange, checkRangeSingle, hr]
    have hpi : playInterface st player row col = (false, st) := by
      rw [playInterface, hrange]
      simp
    rw [hpi]
    exact ⟨by simp [hr], by simp, fun _ => rfl⟩

/-- Witness board: an empty 3 by 3 game. -/
def wEmpty3 : HexGame := mkHexGame 3

/-- Witness for the playInterface specification at a concrete input. -/
theorem playInterface_spec_witness :
    ((playInterface wEmpty3 Player.FIRST 1 2).1 = true ↔
      1 < wEmpty3.m_size ∧ 2 < wEmpty3.m_size ∧
        (wEmpty3.m_tree 1 2).colour = NodeColour.WHITE)
    ∧ ((playInterface wEmpty3 Player.FIRST 1 2).1 = true →
        (((playInterface wEmpty3 Player.FIRST 1 2).2.m_tree 1 2).colour = convertPlayer Player.FIRST ∧
          ∀ r c : ℕ, ¬(r = 1 ∧ c = 2) →
            (playInterface wEmpty3 Player.FIRST 1 2).2.m_tree r c = wEmpty3.m_tree r c))
    ∧ ((playInterface wEmpty3 Player.FIRST 1 2).1 = false →
        (playInterface wEmpty3 Player.FIRST 1 2).2 = wEmpty3) :=
  playInterface_spec wEmpty3 Player.FIRST 1 2

/-- Witness for the connection-list specification at a concrete input:
the interior cell (2,2) of a board of size 5 has exactly 6 neighbours. -/
theorem connections_six_offset_spec_witness :
    3 ≤ 5 ∧ (connections 5 2 2).length = 6 :=
  ⟨by decide,
    (connections_six_offset_spec 5 (by decide) (by decide)).2.2.1 2 (by decide) 2 (by decide)
      (by decide)⟩

/-! ### Frame properties of the path search -/

/-- All traverse marks clear: the state of the board between search
calls (the board proper, in the sense of the specification data model,
carries no visited marks). -/
def marksClear (st : HexGame) : Prop :=
  ∀ r c : ℕ, r < st.m_size → c < st.m_size → (st.m_tree r c).traversed = false

/-- findPath does not change the size, the play counters or any colour,
and it never clears a traverse mark. -/
theorem findPath_frame :
    ∀ (fuel : ℕ) (st : HexGame) (colour : NodeColour) (net : List (ℕ × ℕ)),
      (findPath fuel st colour net).2.m_size = st.m_size
      ∧ (findPath fuel st colour net).2.m_play_total = st.m_play_total
      ∧ (findPath fuel st colour net).2.m_play_maximum = st.m_play_maximum
      ∧ (∀ r c, ((findPath fuel st colour net).2.m_tree r c).colour = (st.m_tree r c).colour)
      ∧ (∀ r c, (st.m_tree r c).traversed = true →
          ((findPath fuel st colour net).2.m_tree r c).traversed = true) := by
  intro fuel
  induction fuel with
  | zero =>
    intro st colour net
    simp [findPath]
  | succ f ih =>
    intro st colour net
    induction net generalizing st with
    | nil => simp [findPath]
    | cons node rest ihn =>
      rw [findPath]
      by_cases h1 : (if colour = NodeColour.GREEN then (node.2, st.m_size - 1)
          else (node.1, st.m_size - 1)).1 =
          (if colour = NodeColour.GREEN then (node.2, st.m_size - 1)
          else (node.1, st.m_size - 1)).2 ∧ (getNode st node.1 node.2).colour = colour
      · rw [if_pos h1]
        exact ⟨rfl, rfl, rfl, fun r c => rfl, fun r c h => h⟩
      · rw [if_neg h1]
        by_cases h2 : (getNode st node.1 node.2).colour = colour ∧
            (getNode st node.1 node.2).traversed = false
        · rw [if_pos h2]
          have hst1 := ih (setTraverse st node.1 node.2) colour
            (connections st.m_size node.1 node.2)
          obtain ⟨hs1, hp1, hm1, hc1, ht1⟩ := hst1
          have hst2 := ihn ((findPath f (setTraverse st node.1 node.2) colour
            (connections st.m_size node.1 node.2)).2)
          obtain ⟨hs2, hp2, hm2, hc2, ht2⟩ := hst2
          refine ⟨by simp only [hs2, hs1, m_size_setTraverse],
            by simp only [hp2, hp1]; rfl,
            by simp only [hm2, hm1]; rfl,
            fun r c => ?_, fun r c h => ?_⟩
          · rw [hc2, hc1, colour_setTraverse]
          · refine ht2 r c (ht1 r c ?_)
            rw [tree_setTraverse]
            split
            · rfl
            · exact h
        · rw [if_neg h2]
          exact ihn st

/-- One-step unfolding of the seed loop on a nonempty index list. -/
theorem seedLoop_cons (fuel : ℕ) (colour : NodeColour) (player : Player) (idx : ℕ)
    (rest : List ℕ) (st : HexGame) :
    seedLoop fuel colour player (idx :: rest) st =
      (let row := match player with | Player.FIRST => idx | Player.SECOND => 0
       let col := match player with | Player.FIRST => 0 | Player.SECOND => idx
       if (getNode st row col).colour = colour ∧ (getNode st row col).traversed = false then
         let res := findPath fuel (setTraverse st row col) colour (connections st.m_size row col)
         if res.1 then (true, res.2)
         else seedLoop fuel colour player rest res.2
       else seedLoop fuel colour player rest st) := by
  rfl

/-- The seed loop of checkWin does not change the size, the play
counters or any colour, and never clears a traverse mark. -/
theorem seedLoop_frame (fuel : ℕ) (colour : NodeColour) (player : Player) :
    ∀ (idxs : List ℕ) (st : HexGame),
      (seedLoop fuel colour player idxs st).2.m_size = st.m_size
      ∧ (seedLoop fuel colour player idxs st).2.m_play_total = st.m_play_total
      ∧ (seedLoop fuel colour player idxs st).2.m_play_maximum = st.m_play_maximum
      ∧ (∀ r c, ((seedLoop fuel colour player idxs st).2.m_tree r c).colour =
          (st.m_tree r c).colour)
      ∧ (∀ r c, (st.m_tree r c).traversed = true →
          ((seedLoop fuel colour player idxs st).2.m_tree r c).traversed = true) := by
  intro idxs
  induction idxs with
  | nil =>
    intro st
    simp [seedLoop]
  | cons idx rest ih =>
    intro st
    rw [seedLoop_cons]
    generalize (match player with | Player.FIRST => idx | Player.SECOND => 0) = row
    generalize (match player with | Player.FIRST => 0 | Player.SECOND => idx) = col
    by_cases h1 : (getNode st row col).colour = colour ∧ (getNode st row col).traversed = false
    · rw [if_pos h1]
      obtain ⟨hs1, hp1, hm1, hc1, ht1⟩ := findPath_frame fuel (setTraverse st row col) colour
        (connections st.m_size row col)
      by_cases h2 : (findPath fuel (setTraverse st row col) colour
          (connections st.m_size row col)).1 = true
      · rw [if_pos h2]
        refine ⟨by simp only [hs1, m_size_setTraverse],
          by simp only [hp1]; rfl, by simp only [hm1]; rfl,
          fun r c => by rw [hc1, colour_setTraverse], fun r c h => ?_⟩
        refine ht1 r c ?_
        rw [tree_setTraverse]
        split
        · rfl
        · exact h
      · rw [if_neg h2]
        obtain ⟨hs2, hp2, hm2, hc2, ht2⟩ := ih ((findPath fuel (setTraverse st row col) colour
          (connections st.m_size row col)).2)
        refine ⟨by simp only [hs2, hs1, m_size_setTraverse],
          by simp only [hp2, hp1]; rfl, by simp only [hm2, hm1]; rfl,
          fun r c => by rw [hc2, hc1, colour_setTraverse], fun r c h => ?_⟩
        refine ht2 r c (ht1 r c ?_)
        rw [tree_setTraverse]
        split
        · rfl
        · exact h
    · rw [if_neg h1]
      exact ih st

/-- C9: when checkWin returns, every traverse mark of the board is
clear, and no colour, size or play counter has changed: the board
carries no residual search state from one checkWin call to the next. -/
theorem checkWin_frame (st : HexGame) (player : Player) :
    (checkWin st player).2.m_size = st.m_size
    ∧ (checkWin st player).2.m_play_total = st.m_play_total
    ∧ (checkWin st player).2.m_play_maximum = st.m_play_maximum
    ∧ (∀ r c : ℕ, r < st.m_size → c < st.m_size →
        ((checkWin st player).2.m_tree r c).traversed = false)
    ∧ (∀ r c : ℕ, ((checkWin st player).2.m_tree r c).colour = (st.m_tree r c).colour) := by
  obtain ⟨hs, hp, hm, hc, _⟩ := seedLoop_frame (st.m_size * st.m_size + 1)
    (convertPlayer player) player (List.range st.m_size) st
  have hsz : (clearAllTraverse (seedLoop (st.m_size * st.m_size + 1) (convertPlayer player)
      player (List.range st.m_size) st).2).m_size = st.m_size := by
    rw [m_size_clearAllTraverse, hs]
  refine ⟨hsz, ?_, ?_, ?_, ?_⟩
  · show (clearAllTraverse _).m_play_total = _
    rw [clearAllTraverse_eq]
    exact hp
  · show (clearAllTraverse _).m_play_maximum = _
    rw [clearAllTraverse_eq]
    exact hm
  · intro r c hr hc2
    show ((clearAllTraverse _).m_tree r c).traversed = false
    rw [tree_clearAllTraverse, hs, if_pos ⟨hr, hc2⟩]
  · intro r c
    show ((clearAllTraverse _).m_tree r c).colour = _
    rw [tree_clearAllTraverse, hs]
    split
    · exact hc r c
    · exact hc r c

/-- Witness for the checkWin frame property at a concrete input. -/
theorem checkWin_frame_witness :
    ((checkWin wEmpty3 Player.FIRST).2.m_tree 1 1).traversed = false ∧
      ((checkWin wEmpty3 Player.FIRST).2.m_tree 1 1).colour = (wEmpty3.m_tree 1 1).colour :=
  ⟨(checkWin_frame wEmpty3 Player.FIRST).2.2.2.1 1 1 (by decide) (by decide),
    (checkWin_frame wEmpty3 Player.FIRST).2.2.2.2 1 1⟩

/-! ### The play-counter invariant -/

/-- Number of coloured (non-WHITE) cells of the grid. -/
def countColoured (st : HexGame) : ℕ :=
  ((Finset.range st.m_size ×ˢ Finset.range st.m_size).filter
    (fun p => (st.m_tree p.1 p.2).colour ≠ NodeColour.WHITE)).card

theorem countColoured_congr (st st2 : HexGame) (hs : st2.m_size = st.m_size)
    (hcol : ∀ r c, (st2.m_tree r c).colour = (st.m_tree r c).colour) :
    countColoured st2 = countColoured st := by
  unfold countColoured
  rw [hs]
  congr 1
  apply Finset.filter_congr
  intro p _
  rw [hcol]

theorem countColoured_mkHexGame (size : ℕ) : countColoured (mkHexGame size) = 0 := by
  unfold countColoured mkHexGame
  simp

theorem countColoured_addPlay_success (st : HexGame) (player : Player) (row col : ℕ)
    (hr : row < st.m_size) (hc : col < st.m_size)
    (hw : (st.m_tree row col).colour = NodeColour.WHITE) :
    countColoured (addPlay st player row col).2 = countColoured st + 1 := by
  have hget : (getNode st row col).colour = NodeColour.WHITE := by
    rw [getNode, if_pos ⟨hr, hc⟩]
    exact hw
  unfold countColoured
  rw [m_size_addPlay]
  have hins : ((Finset.range st.m_size ×ˢ Finset.range st.m_size).filter
      (fun p => ((addPlay st player row col).2.m_tree p.1 p.2).colour ≠ NodeColour.WHITE)) =
      insert (row, col) ((Finset.range st.m_size ×ˢ Finset.range st.m_size).filter
        (fun p => (st.m_tree p.1 p.2).colour ≠ NodeColour.WHITE)) := by
    ext p
    obtain ⟨a, b⟩ := p
    simp only [Finset.mem_filter, Finset.mem_insert, Finset.mem_product, Finset.mem_range,
      Prod.mk.injEq]
    constructor
    · rintro ⟨⟨ha, hb⟩, hne⟩
      by_cases hab : a = row ∧ b = col
      · exact Or.inl hab
      · refine Or.inr ⟨⟨ha, hb⟩, ?_⟩
        rw [tree_addPlay, if_neg (by tauto)] at hne
        exact hne
    · rintro (⟨rfl, rfl⟩ | ⟨⟨ha, hb⟩, hne⟩)
      · refine ⟨⟨hr, hc⟩, ?_⟩
        rw [tree_addPlay, if_pos ⟨hget, rfl, rfl⟩]
        cases player <;> simp [convertPlayer]
      · refine ⟨⟨ha, hb⟩, ?_⟩
        rw [tree_addPlay]
        by_cases hab : a = row ∧ b = col
        · obtain ⟨rfl, rfl⟩ := hab
          exact absurd hw hne
        · rw [if_neg (by tauto)]
          exact hne
  rw [hins, Finset.card_insert_of_not_mem]
  intro hmem
  simp only [Finset.mem_filter] at hmem
  exact hmem.2 hw

/-! ### Reachable states and the play-counter invariant (hex_game.h) -/

theorem optionMapList_cons_some {α β : Type} {f : α → Option β} {x : α} {xs : List α}
    {ys : List β} (h : optionMapList f (x :: xs) = some ys) :
    ∃ y ys2, ys = y :: ys2 ∧ f x = some y ∧ optionMapList f xs = some ys2 := by
  unfold optionMapList at h
  split at h
  · rename_i y ys2 hy hys
    simp only [Option.some.injEq] at h
    exact ⟨y, ys2, h.symm, hy, hys⟩
  · exact absurd h (by simp)

theorem optionMapList_mem {α β : Type} {f : α → Option β} :
    ∀ {l : List α} {ys : List β}, optionMapList f l = some ys →
      ∀ y ∈ ys, ∃ x ∈ l, f x = some y := by
  intro l
  induction l with
  | nil =>
    intro ys h y hy
    unfold optionMapList at h
    simp only [Option.some.injEq] at h
    subst h
    simp at hy
  | cons x xs ih =>
    intro ys h y hy
    obtain ⟨y2, ys2, rfl, hy2, hys2⟩ := optionMapList_cons_some h
    rcases List.mem_cons.mp hy with rfl | hmem
    · exact ⟨x, List.mem_cons_self x xs, hy2⟩
    · obtain ⟨x2, hx2, hfx2⟩ := ih hys2 y hmem
      exact ⟨x2, List.mem_cons_of_mem x hx2, hfx2⟩

theorem mem_freeCells (st : HexGame) (r c : ℕ) :
    (r, c) ∈ freeCells st ↔
      r < st.m_size ∧ c < st.m_size ∧ (st.m_tree r c).colour = NodeColour.WHITE := by
  unfold freeCells isNodeFree isNodeColour
  simp only [List.mem_flatMap, List.mem_filterMap, List.mem_range]
  constructor
  · rintro ⟨a, ha, b, hb, h⟩
    split at h
    · rename_i hfree
      simp only [Option.some.injEq, Prod.mk.injEq] at h
      obtain ⟨rfl, rfl⟩ := h
      refine ⟨ha, hb, ?_⟩
      rw [getNode, if_pos ⟨ha, hb⟩] at hfree
      exact beq_iff_eq.mp hfree
    · exact absurd h (by simp)
  · rintro ⟨hr, hc, hw⟩
    refine ⟨r, hr, c, hc, ?_⟩
    rw [if_pos]
    rw [getNode, if_pos ⟨hr, hc⟩]
    exact beq_iff_eq.mpr hw

/-- The final state component of a successful testPlay is the starting
state with the candidate move applied, and the probability it returns
carries the candidate coordinates. -/
theorem testPlay_some_parts {fillFuel : ℕ} {st : HexGame} {row_idx col_idx : ℕ} {f : ℕ → ℕ}
    {pos : ℕ} {p : Probability} {st2 : HexGame} {pos2 : ℕ}
    (h : testPlay fillFuel st row_idx col_idx f pos = some (p, st2, pos2)) :
    p.m_row = row_idx ∧ p.m_col = col_idx ∧ st2 = (addPlay st Player.SECOND row_idx col_idx).2 := by
  simp only [testPlay] at h
  split at h
  · exact absurd h (by simp)
  · rename_i wins pos3 heq
    simp only [Option.some.injEq, Prod.mk.injEq] at h
    obtain ⟨hp, hst, _⟩ := h
    exact ⟨by rw [← hp], by rw [← hp], hst.symm⟩

/-- A successful testPlay_threaded returns a probability carrying the
candidate coordinates. -/
theorem testPlay_threaded_some_parts {fillFuel : ℕ} {st : HexGame} {row_idx col_idx : ℕ}
    {streams : ℕ → ℕ → ℕ} {p : Probability}
    (h : testPlay_threaded fillFuel st row_idx col_idx streams = some p) :
    p.m_row = row_idx ∧ p.m_col = col_idx := by
  simp only [testPlay_threaded] at h
  split at h
  · exact absurd h (by simp)
  · rename_i results heq
    simp only [Option.some.injEq] at h
    subst h
    rw [show (List.range 10) = 0 :: [1, 2, 3, 4, 5, 6, 7, 8, 9] from rfl] at heq
    obtain ⟨y, ys2, rfl, hy, _⟩ := optionMapList_cons_some heq
    obtain ⟨hrow, hcol, _⟩ := testPlay_some_parts hy
    exact ⟨hrow, hcol⟩

/-- A successful computerPlay applies the SECOND player's move at a cell
that was free (and in range) in the starting state. -/
theorem computerPlay_some {fillFuel : ℕ} {st : HexGame} {streams : ℕ × ℕ → ℕ → ℕ → ℕ}
    {sortImpl : List Probability → List Probability} {st2 : HexGame}
    (hperm : ∀ l : List Probability, (sortImpl l).Perm l)
    (h : computerPlay fillFuel st streams sortImpl = some st2) :
    ∃ row col : ℕ, row < st.m_size ∧ col < st.m_size ∧
      (st.m_tree row col).colour = NodeColour.WHITE ∧
      st2 = (addPlay st Player.SECOND row col).2 := by
  simp only [computerPlay] at h
  split at h
  · exact absurd h (by simp)
  · rename_i outputs houtputs
    split at h
    · exact absurd h (by simp)
    · rename_i best rest hsort
      simp only [Option.some.injEq] at h
      have hbest : best ∈ sortImpl outputs := by
        rw [hsort]
        exact List.mem_cons_self best rest
      have hbest2 : best ∈ outputs := (hperm outputs).mem_iff.mp hbest
      obtain ⟨rc, hrc, hthr⟩ := optionMapList_mem houtputs best hbest2
      obtain ⟨hrow, hcol⟩ := testPlay_threaded_some_parts hthr
      obtain ⟨a, b⟩ := rc
      rw [mem_freeCells] at hrc
      exact ⟨best.m_row, best.m_col, by rw [hrow]; exact hrc.1, by rw [hcol]; exact hrc.2.1,
        by rw [hrow, hcol]; exact hrc.2.2, h.symm⟩

/-- States of the HexGame object reachable from construction through the
public operations playInterface, checkWin, testPlay and computerPlay
(testPlay is invoked by the search only on in-range candidate cells;
sortImpl is any permutation, as guaranteed for std::sort). -/
inductive Reachable : HexGame → Prop where
  | init (size : ℕ) (h3 : 3 ≤ size) (h11 : size ≤ 11) : Reachable (mkHexGame size)
  | play (st : HexGame) (player : Player) (row col : ℕ) (h : Reachable st) :
      Reachable (playInterface st player row col).2
  | win (st : HexGame) (player : Player) (h : Reachable st) :
      Reachable (checkWin st player).2
  | test (st : HexGame) (fillFuel row col : ℕ) (f : ℕ → ℕ) (pos : ℕ) (p : Probability)
      (st2 : HexGame) (pos2 : ℕ) (h : Reachable st) (hr : row < st.m_size)
      (hc : col < st.m_size) (ht : testPlay fillFuel st row col f pos = some (p, st2, pos2)) :
      Reachable st2
  | comp (st : HexGame) (fillFuel : ℕ) (streams : ℕ × ℕ → ℕ → ℕ → ℕ)
      (sortImpl : List Probability → List Probability) (st2 : HexGame) (h : Reachable st)
      (hperm : ∀ l : List Probability, (sortImpl l).Perm l)
      (hcp : computerPlay fillFuel st streams sortImpl = some st2) : Reachable st2

theorem playInterface_snd (st : HexGame) (player : Player) (row col : ℕ) :
    (playInterface st player row col).2 =
      if row < st.m_size ∧ col < st.m_size then (addPlay st player row col).2 else st := by
  unfold playInterface checkInputRange checkRangeSingle
  by_cases hr : row < st.m_size
  · by_cases hc : col < st.m_size <;> simp [hr, hc]
  · simp [hr]

/-- addPlay at an in-range cell preserves the play-counter invariant. -/
theorem invariant_addPlay (st : HexGame) (player : Player) (row col : ℕ)
    (hr : row < st.m_size) (hc : col < st.m_size)
    (h1 : st.m_play_total = countColoured st)
    (h2 : st.m_play_maximum = st.m_size * st.m_size) :
    (addPlay st player row col).2.m_play_total = countColoured (addPlay st player row col).2
    ∧ (addPlay st player row col).2.m_play_maximum =
        (addPlay st player row col).2.m_size * (addPlay st player row col).2.m_size := by
  rw [m_play_maximum_addPlay, m_size_addPlay, m_play_total_addPlay]
  by_cases hw : (st.m_tree row col).colour = NodeColour.WHITE
  · have hget : (getNode st row col).colour = NodeColour.WHITE := by
      rw [getNode, if_pos ⟨hr, hc⟩]
      exact hw
    rw [if_pos hget, countColoured_addPlay_success st player row col hr hc hw]
    exact ⟨by rw [h1], h2⟩
  · have hget : ¬(getNode st row col).colour = NodeColour.WHITE := by
      rw [getNode, if_pos ⟨hr, hc⟩]
      exact hw
    rw [if_neg hget, addPlay_fail hget]
    exact ⟨h1, h2⟩

set_option maxHeartbeats 800000 in
/-- C10: in every reachable HexGame state, m_play_total equals the
number of non-WHITE cells and m_play_maximum equals the squared board
size; consequently the fill loop guard m_play_total < m_play_maximum
fails exactly when every cell of the board is coloured. -/
theorem reachable_play_invariant (st : HexGame) (h : Reachable st) :
    st.m_play_total = countColoured st
    ∧ st.m_play_maximum = st.m_size * st.m_size
    ∧ (st.m_play_maximum ≤ st.m_play_total ↔
        ∀ r c : ℕ, r < st.m_size → c < st.m_size →
          (st.m_tree r c).colour ≠ NodeColour.WHITE) := by
  have main : st.m_play_total = countColoured st
      ∧ st.m_play_maximum = st.m_size * st.m_size := by
    induction h with
    | init size h3 h11 =>
      exact ⟨countColoured_mkHexGame size ▸ rfl, rfl⟩
    | play st player row col h ih =>
      rw [playInterface_snd]
      by_cases hrange : row < st.m_size ∧ col < st.m_size
      · rw [if_pos hrange]
        exact invariant_addPlay st player row col hrange.1 hrange.2 ih.1 ih.2
      · rw [if_neg hrange]
        exact ih
    | win st player h ih =>
      obtain ⟨hs, hp, hm, _, hcol⟩ := checkWin_frame st player
      have hcc : countColoured (checkWin st player).2 = countColoured st :=
        countColoured_congr st (checkWin st player).2 hs hcol
      rw [hp, hm, hs, hcc]
      exact ih
    | test st fillFuel row col f pos p st2 pos2 h hr hc ht ih =>
      obtain ⟨_, _, hst2⟩ := testPlay_some_parts ht
      rw [hst2]
      exact invariant_addPlay st Player.SECOND row col hr hc ih.1 ih.2
    | comp st fillFuel streams sortImpl st2 h hperm hcp ih =>
      obtain ⟨row, col, hr, hc, hw, hst2⟩ := computerPlay_some hperm hcp
      rw [hst2]
      exact invariant_addPlay st Player.SECOND row col hr hc ih.1 ih.2
  refine ⟨main.1, main.2, ?_⟩
  rw [main.1, main.2]
  unfold countColoured
  constructor
  · intro hle r c hr hc
    have hcard : ((Finset.range st.m_size ×ˢ Finset.range st.m_size).card ≤
        ((Finset.range st.m_size ×ˢ Finset.range st.m_size).filter
          (fun p => (st.m_tree p.1 p.2).colour ≠ NodeColour.WHITE)).card) := by
      rwa [Finset.card_product, Finset.card_range]
    have heq := Finset.eq_of_subset_of_card_le (Finset.filter_subset _ _) hcard
    have hmem : (r, c) ∈ (Finset.range st.m_size ×ˢ Finset.range st.m_size) := by
      simp [Finset.mem_product, hr, hc]
    rw [← heq] at hmem
    exact (Finset.mem_filter.mp hmem).2
  · intro hfull
    have heq : (Finset.range st.m_size ×ˢ Finset.range st.m_size).filter
        (fun p => (st.m_tree p.1 p.2).colour ≠ NodeColour.WHITE) =
        (Finset.range st.m_size ×ˢ Finset.range st.m_size) := by
      apply Finset.filter_true_of_mem
      intro p hp
      simp only [Finset.mem_product, Finset.mem_range] at hp
      exact hfull p.1 p.2 hp.1 hp.2
    rw [heq, Finset.card_product, Finset.card_range]

/-- Witness for the play-counter invariant at a concrete reachable state. -/
theorem reachable_play_invariant_witness :
    wEmpty3.m_play_total = countColoured wEmpty3
    ∧ wEmpty3.m_play_maximum = wEmpty3.m_size * wEmpty3.m_size
    ∧ (wEmpty3.m_play_maximum ≤ wEmpty3.m_play_total ↔
        ∀ r c : ℕ, r < wEmpty3.m_size → c < wEmpty3.m_size →
          (wEmpty3.m_tree r c).colour ≠ NodeColour.WHITE) :=
  reachable_play_invariant wEmpty3 (Reachable.init 3 (by decide) (by decide))

/-! ### The playout fill loop (C7) -/

/-- Strict alternation of the players recorded in a fill trace,
starting from the given player. -/
def altFrom : Player → List (Player × ℕ × ℕ) → Prop
  | _, [] => True
  | p, (q, _, _) :: rest => q = p ∧ altFrom (togglePlayer p) rest

/-- C7 (amended): every successful randomFill run performed with a given
starting player colours cells in strict alternation starting from that
player (the turn advances only on a successful placement) and stops only
once m_play_total has reached m_play_maximum (the full board, by the
play-counter invariant).  The playout loop of testPlay invokes randomFill
with Player.SECOND, both for the first playout (hex_game.h line 182) and
after every per-playout reset (line 218), so the random completion
starts from the second player's colour, not the first player's. -/
theorem randomFill_zero (st : HexGame) (player : Player) (f : ℕ → ℕ) (pos : ℕ) :
    randomFill 0 st player f pos =
      if st.m_play_total < st.m_play_maximum then none else some (st, pos, []) := rfl

/-- One-step unfolding of randomFill with positive fuel. -/
theorem randomFill_succ (fuel : ℕ) (st : HexGame) (player : Player) (f : ℕ → ℕ) (pos : ℕ) :
    randomFill (fuel + 1) st player f pos =
      if st.m_play_total < st.m_play_maximum then
        (if (addPlay st player (f pos % st.m_size) (f (pos + 1) % st.m_size)).1 = true then
          match randomFill fuel (addPlay st player (f pos % st.m_size) (f (pos + 1) % st.m_size)).2
              (togglePlayer player) f (pos + 2) with
          | none => none
          | some (st2, pos2, trace) =>
            some (st2, pos2, (player, f pos % st.m_size, f (pos + 1) % st.m_size) :: trace)
        else randomFill fuel (addPlay st player (f pos % st.m_size) (f (pos + 1) % st.m_size)).2
          player f (pos + 2))
      else some (st, pos, []) := rfl

theorem randomFill_alternates :
    ∀ (fuel : ℕ) (player : Player) (st : HexGame) (f : ℕ → ℕ) (pos : ℕ)
      (st2 : HexGame) (pos2 : ℕ) (trace : List (Player × ℕ × ℕ)),
      randomFill fuel st player f pos = some (st2, pos2, trace) →
      altFrom player trace ∧ st2.m_play_maximum ≤ st2.m_play_total := by
  intro fuel
  induction fuel with
  | zero =>
    intro player st f pos st2 pos2 trace h
    rw [randomFill_zero] at h
    split at h
    · exact absurd h (by simp)
    · rename_i hfull
      simp only [Option.some.injEq, Prod.mk.injEq] at h
      obtain ⟨rfl, rfl, rfl⟩ := h
      exact ⟨trivial, by omega⟩
  | succ fuel ih =>
    intro player st f pos st2 pos2 trace h
    rw [randomFill_succ] at h
    split at h
    · split at h
      · split at h
        · exact absurd h (by simp)
        · rename_i st3 pos3 trace3 hrec
          simp only [Option.some.injEq, Prod.mk.injEq] at h
          obtain ⟨rfl, rfl, rfl⟩ := h
          obtain ⟨halt, hfull⟩ := ih (togglePlayer player) _ f (pos + 2) st3 pos3 trace3 hrec
          exact ⟨⟨rfl, halt⟩, hfull⟩
      · exact ih player _ f (pos + 2) st2 pos2 trace h
    · rename_i hfull
      simp only [Option.some.injEq, Prod.mk.injEq] at h
      obtain ⟨rfl, rfl, rfl⟩ := h
      exact ⟨trivial, by omega⟩

/-! ### Evaluation lemmas for playouts on a full board -/

theorem randomFill_full (fuel : ℕ) (st : HexGame) (player : Player) (f : ℕ → ℕ) (pos : ℕ)
    (h : st.m_play_maximum ≤ st.m_play_total) :
    randomFill fuel st player f pos = some (st, pos, []) := by
  cases fuel with
  | zero => rw [randomFill_zero, if_neg (by omega)]
  | succ n => rw [randomFill_succ, if_neg (by omega)]

theorem testPlayLoop_zero (st : HexGame) (f : ℕ → ℕ) (pos fillFuel : ℕ) :
    testPlayLoop 0 st f pos fillFuel = some (0, pos) := rfl

/-- One-step unfolding of the playout loop. -/
theorem testPlayLoop_succ (plays : ℕ) (st : HexGame) (f : ℕ → ℕ) (pos fillFuel : ℕ) :
    testPlayLoop (plays + 1) st f pos fillFuel =
      match randomFill fillFuel st Player.SECOND f pos with
      | none => none
      | some (st2, pos2, _) =>
        match testPlayLoop plays st f pos2 fillFuel with
        | none => none
        | some (wins, pos3) =>
          some ((if (checkWin st2 Player.SECOND).1 then wins + 1 else wins), pos3) := rfl

/-- On an already-full board every playout is the win check of the
unchanged board, so the loop returns plays wins or none at all. -/
theorem testPlayLoop_full (plays : ℕ) (st : HexGame) (f : ℕ → ℕ) (pos fillFuel : ℕ)
    (h : st.m_play_maximum ≤ st.m_play_total) :
    testPlayLoop plays st f pos fillFuel =
      some ((if (checkWin st Player.SECOND).1 then plays else 0), pos) := by
  induction plays with
  | zero =>
    rw [testPlayLoop_zero]
    by_cases hb : (checkWin st Player.SECOND).1 <;> simp [hb]
  | succ n ih =>
    rw [testPlayLoop_succ, randomFill_full fillFuel st Player.SECOND f pos h]
    simp only []
    rw [ih]
    by_cases hb : (checkWin st Player.SECOND).1 <;> simp [hb]

/-- testPlay on a candidate that fills the board completely: the playout
loop runs playLimit playouts of the unchanged full board. -/
theorem testPlay_full (fillFuel : ℕ) (st : HexGame) (row col : ℕ) (f : ℕ → ℕ) (pos : ℕ)
    (h : (addPlay st Player.SECOND row col).2.m_play_maximum ≤
      (addPlay st Player.SECOND row col).2.m_play_total) :
    testPlay fillFuel st row col f pos =
      some ({ m_value :=
                (Nat.cast (if (checkWin (addPlay st Player.SECOND row col).2 Player.SECOND).1
                    then playLimit (addPlay st Player.SECOND row col).2.m_size else 0) : ℚ) /
                  ((playLimit (addPlay st Player.SECOND row col).2.m_size : ℚ) + 1),
              m_row := row, m_col := col }, (addPlay st Player.SECOND row col).2, pos) := by
  simp only [testPlay]
  rw [testPlayLoop_full (playLimit (addPlay st Player.SECOND row col).2.m_size)
    (addPlay st Player.SECOND row col).2 f pos fillFuel h]

/-- Helper: apply a move and keep the state (used to build concrete
witness boards through the public interface). -/
def place (st : HexGame) (player : Player) (row col : ℕ) : HexGame :=
  (playInterface st player row col).2

/-- testPlay_threaded on a candidate that fills the board: all ten
threads return the same probability, whose average is reported. -/
theorem testPlay_threaded_full (fillFuel : ℕ) (st : HexGame) (row col : ℕ)
    (streams : ℕ → ℕ → ℕ)
    (h : (addPlay st Player.SECOND row col).2.m_play_maximum ≤
      (addPlay st Player.SECOND row col).2.m_play_total) :
    testPlay_threaded fillFuel st row col streams =
      some (averageResults (List.replicate 10
        { m_value :=
            (Nat.cast (if (checkWin (addPlay st Player.SECOND row col).2 Player.SECOND).1
                then playLimit (addPlay st Player.SECOND row col).2.m_size else 0) : ℚ) /
              ((playLimit (addPlay st Player.SECOND row col).2.m_size : ℚ) + 1),
          m_row := row, m_col := col })) := by
  simp only [testPlay_threaded]
  have hconst : (fun i : ℕ => testPlay fillFuel st row col (streams i) 0) =
      (fun _ : ℕ => some
        ({ m_value :=
             (Nat.cast (if (checkWin (addPlay st Player.SECOND row col).2 Player.SECOND).1
                 then playLimit (addPlay st Player.SECOND row col).2.m_size else 0) : ℚ) /
               ((playLimit (addPlay st Player.SECOND row col).2.m_size : ℚ) + 1),
           m_row := row, m_col := col }, (addPlay st Player.SECOND row col).2, 0)) :=
    funext fun i => testPlay_full fillFuel st row col (streams i) 0 h
  rw [hconst]
  rfl

/-- C8: whenever computerPlay completes, the coordinate it selects and
occupies was Empty (WHITE) and in range immediately before the call, and
afterwards holds the second player's colour. -/
theorem computerPlay_selects_empty (fillFuel : ℕ) (st : HexGame)
    (streams : ℕ × ℕ → ℕ → ℕ → ℕ) (sortImpl : List Probability → List Probability)
    (st2 : HexGame) (hperm : ∀ l : List Probability, (sortImpl l).Perm l)
    (h : computerPlay fillFuel st streams sortImpl = some st2) :
    ∃ row col : ℕ, row < st.m_size ∧ col < st.m_size ∧
      (st.m_tree row col).colour = NodeColour.WHITE ∧
      st2 = (addPlay st Player.SECOND row col).2 ∧
      (st2.m_tree row col).colour = convertPlayer Player.SECOND := by
  obtain ⟨row, col, hr, hc, hw, hst2⟩ := computerPlay_some hperm h
  refine ⟨row, col, hr, hc, hw, hst2, ?_⟩
  have hget : (getNode st row col).colour = NodeColour.WHITE := by
    rw [getNode, if_pos ⟨hr, hc⟩]
    exact hw
  rw [hst2, tree_addPlay, if_pos ⟨hget, rfl, rfl⟩]

/-- Concrete board with a single free cell (2,2), built through the
public interface. -/
def wAlmost : HexGame :=
  place (place (place (place (place (place (place (place (mkHexGame 3)
    Player.SECOND 0 0) Player.FIRST 0 1) Player.SECOND 0 2) Player.FIRST 1 0)
    Player.SECOND 1 1) Player.FIRST 1 2) Player.SECOND 2 0) Player.FIRST 2 1

/-- computerPlay on wAlmost selects the only free cell (2,2). -/
theorem computerPlay_wAlmost_eq :
    computerPlay 0 wAlmost (fun _ _ _ => 0) id =
      some ((addPlay wAlmost Player.SECOND 2 2).2) := by
  have hfull : (addPlay wAlmost Player.SECOND 2 2).2.m_play_maximum ≤
      (addPlay wAlmost Player.SECOND 2 2).2.m_play_total := by decide
  simp only [computerPlay]
  rw [show freeCells wAlmost = [(2, 2)] from by decide]
  simp only [optionMapList]
  rw [testPlay_threaded_full 0 wAlmost 2 2 (fun _ _ => 0) hfull]
  rfl

/-- Witness for the computerPlay selection property at a concrete input. -/
theorem computerPlay_selects_empty_witness :
    ∃ row col : ℕ, row < wAlmost.m_size ∧ col < wAlmost.m_size ∧
      (wAlmost.m_tree row col).colour = NodeColour.WHITE ∧
      (addPlay wAlmost Player.SECOND 2 2).2 = (addPlay wAlmost Player.SECOND row col).2 ∧
      (((addPlay wAlmost Player.SECOND 2 2).2).m_tree row col).colour =
        convertPlayer Player.SECOND :=
  computerPlay_selects_empty 0 wAlmost (fun _ _ _ => 0) id
    ((addPlay wAlmost Player.SECOND 2 2).2) (fun l => List.Perm.refl l) computerPlay_wAlmost_eq

/-- Concrete 3 by 3 board: RED (SECOND) at (0,0) and (1,0), GREEN
(FIRST) at (0,1). -/
def wNearWin : HexGame :=
  place (place (place (mkHexGame 3) Player.SECOND 0 0) Player.SECOND 1 0) Player.FIRST 0 1

/-- Concrete random stream: attempt i of a playout targets cell number
i mod 9 of the 3 by 3 board in row-major order, so every playout fills
the board in 9 attempts (18 stream reads). -/
def wStream : ℕ → ℕ :=
  fun k => (let i := k % 18; if i % 2 == 0 then (i / 2) / 3 else (i / 2) % 3)

/-- C7 counterexample: in the testPlay run on wNearWin with candidate
(2,0), the first playout fill (randomFill invoked by testPlayLoop with
Player.SECOND) makes its first successful placement with the SECOND
player's colour, not the first player's: the random completion does not
start from the colour whose turn would be next after the candidate. -/
theorem randomFill_first_placement_counterexample :
    (randomFill 20 (addPlay wNearWin Player.SECOND 2 0).2 Player.SECOND wStream 0).map
        (fun r => r.2.2.head?) = some (some (Player.SECOND, 0, 2))
    ∧ Player.SECOND ≠ Player.FIRST :=
  ⟨by decide, by decide⟩

/-- The output of the concrete fill run used by the witness below. -/
def wFillOut : HexGame × ℕ × List (Player × ℕ × ℕ) :=
  (randomFill 20 (addPlay wNearWin Player.SECOND 2 0).2 Player.SECOND wStream 0).getD
    (mkHexGame 0, 0, [])

/-- Witness for the fill alternation property at a concrete input. -/
theorem randomFill_alternates_witness :
    altFrom Player.SECOND wFillOut.2.2 ∧
      wFillOut.1.m_play_maximum ≤ wFillOut.1.m_play_total :=
  randomFill_alternates 20 Player.SECOND (addPlay wNearWin Player.SECOND 2 0).2 wStream 0
    wFillOut.1 wFillOut.2.1 wFillOut.2.2 rfl

/-! ### The probability returned by testPlay (C4) -/

theorem testPlayLoop_wins_le :
    ∀ (plays : ℕ) (st : HexGame) (f : ℕ → ℕ) (pos fillFuel : ℕ) (wins pos2 : ℕ),
      testPlayLoop plays st f pos fillFuel = some (wins, pos2) → wins ≤ plays := by
  intro plays
  induction plays with
  | zero =>
    intro st f pos fillFuel wins pos2 h
    rw [testPlayLoop_zero] at h
    simp only [Option.some.injEq, Prod.mk.injEq] at h
    omega
  | succ n ih =>
    intro st f pos fillFuel wins pos2 h
    rw [testPlayLoop_succ] at h
    split at h
    · exact absurd h (by simp)
    · rename_i st2 pos3 trace hfill
      split at h
      · exact absurd h (by simp)
      · rename_i wins2 pos4 hloop
        simp only [Option.some.injEq, Prod.mk.injEq] at h
        have := ih st f pos3 fillFuel wins2 pos4 hloop
        split at h <;> omega

/-- C4 (amended): a successful testPlay runs exactly playLimit(size)
playouts, and the probability value it returns is the win count divided
by playLimit(size) + 1 (the final value of the post-incremented count
variable), not by the number of playouts run. -/
theorem testPlay_value_spec (fillFuel : ℕ) (st : HexGame) (row col : ℕ) (f : ℕ → ℕ)
    (pos : ℕ) (p : Probability) (st2 : HexGame) (pos2 : ℕ)
    (h : testPlay fillFuel st row col f pos = some (p, st2, pos2)) :
    ∃ wins : ℕ, wins ≤ playLimit st.m_size ∧
      testPlayLoop (playLimit st.m_size) (addPlay st Player.SECOND row col).2 f pos fillFuel =
        some (wins, pos2) ∧
      p.m_value = (wins : ℚ) / ((playLimit st.m_size : ℚ) + 1) := by
  simp only [testPlay, m_size_addPlay] at h
  split at h
  · exact absurd h (by simp)
  · rename_i wins pos3 hloop
    simp only [Option.some.injEq, Prod.mk.injEq] at h
    obtain ⟨hp, _, hpos⟩ := h
    refine ⟨wins, testPlayLoop_wins_le _ _ f pos fillFuel wins pos3 hloop, ?_, ?_⟩
    · rw [hloop, hpos]
    · rw [← hp]

/-- The full board obtained from wAlmost by the candidate move (2,2). -/
def wFull : HexGame := (addPlay wAlmost Player.SECOND 2 2).2

/-- The probability testPlay reports for the candidate (2,2) on wAlmost. -/
def wFullProb : Probability :=
  { m_value :=
      (Nat.cast (if (checkWin wFull Player.SECOND).1 then playLimit wFull.m_size else 0) : ℚ) /
        ((playLimit wFull.m_size : ℚ) + 1),
    m_row := 2, m_col := 2 }

theorem testPlay_wAlmost_eq :
    testPlay 0 wAlmost 2 2 (fun _ => 0) 0 = some (wFullProb, wFull, 0) :=
  testPlay_full 0 wAlmost 2 2 (fun _ => 0) 0 (by decide)

/-- Witness for the testPlay value specification at a concrete input. -/
theorem testPlay_value_spec_witness :
    ∃ wins : ℕ, wins ≤ playLimit wAlmost.m_size ∧
      testPlayLoop (playLimit wAlmost.m_size) (addPlay wAlmost Player.SECOND 2 2).2
          (fun _ => 0) 0 0 = some (wins, 0) ∧
      wFullProb.m_value = (wins : ℚ) / ((playLimit wAlmost.m_size : ℚ) + 1) :=
  testPlay_value_spec 0 wAlmost 2 2 (fun _ => 0) 0 wFullProb wFull 0 testPlay_wAlmost_eq

/-! ### Borders, reachability and the win condition (C1) -/

/-- The seed cell of iteration idx of the checkWin loop: (idx, 0) for
FIRST, (0, idx) for SECOND. -/
def startCell (player : Player) (idx : ℕ) : ℕ × ℕ :=
  match player with
  | Player.FIRST => (idx, 0)
  | Player.SECOND => (0, idx)

/-- The starting border checkWin seeds from: column 0 for FIRST (GREEN),
row 0 for SECOND (RED). -/
def onStartBorder (player : Player) (p : ℕ × ℕ) : Prop :=
  match player with
  | Player.FIRST => p.2 = 0
  | Player.SECOND => p.1 = 0

/-- The ending border findPath succeeds on: column size - 1 for FIRST
(GREEN), row size - 1 for SECOND (RED), per the compare() lambda and
m_limits. -/
def onEndBorder (player : Player) (size : ℕ) (p : ℕ × ℕ) : Prop :=
  match player with
  | Player.FIRST => p.2 = size - 1
  | Player.SECOND => p.1 = size - 1

/-- The coordinate compared against m_limits by findPath: the column for
GREEN, the row otherwise. -/
def endIdx (colour : NodeColour) (p : ℕ × ℕ) : ℕ :=
  if colour = NodeColour.GREEN then p.2 else p.1

theorem endIdx_eq_iff_onEndBorder (player : Player) (size : ℕ) (p : ℕ × ℕ) :
    endIdx (convertPlayer player) p = size - 1 ↔ onEndBorder player size p := by
  cases player <;> simp [endIdx, convertPlayer, onEndBorder]

/-- A cell of the fixed colour context: in bounds and of the colour. -/
def okCell (N : ℕ) (C : ℕ → ℕ → NodeColour) (colour : NodeColour) (p : ℕ × ℕ) : Prop :=
  p.1 < N ∧ p.2 < N ∧ C p.1 p.2 = colour

/-- One step between two same-coloured adjacent cells. -/
def stepCell (N : ℕ) (C : ℕ → ℕ → NodeColour) (colour : NodeColour) (a b : ℕ × ℕ) : Prop :=
  okCell N C colour a ∧ okCell N C colour b ∧ adjacent a.1 a.2 b.1 b.2

/-- Existence of a same-coloured connection from the starting border to
the ending border of a player, as pure reachability. -/
def winChain (N : ℕ) (C : ℕ → ℕ → NodeColour) (player : Player) : Prop :=
  ∃ a b : ℕ × ℕ, okCell N C (convertPlayer player) a ∧ onStartBorder player a ∧
    onEndBorder player N b ∧
    Relation.ReflTransGen (stepCell N C (convertPlayer player)) a b

/-- The colour context of a game state. -/
def boardCtx (st : HexGame) : ℕ → ℕ → NodeColour :=
  fun r c => (st.m_tree r c).colour

/-- The chain form of the win condition, as the claim words it: a
nonempty list of same-coloured in-bounds cells, consecutive cells
adjacent, whose first cell lies on the starting border and whose last
cell lies on the ending border of the player. -/
def hasChainList (st : HexGame) (player : Player) : Prop :=
  ∃ l : List (ℕ × ℕ), l ≠ [] ∧
    (∀ q ∈ l, q.1 < st.m_size ∧ q.2 < st.m_size ∧
      (st.m_tree q.1 q.2).colour = convertPlayer player) ∧
    List.Chain' (fun a b => adjacent a.1 a.2 b.1 b.2) l ∧
    (∀ p, l.head? = some p → onStartBorder player p) ∧
    (∀ p, l.getLast? = some p → onEndBorder player st.m_size p)

theorem convertPlayer_ne_white (player : Player) : convertPlayer player ≠ NodeColour.WHITE := by
  cases player <;> simp [convertPlayer]

/-- A getNode hit of a non-WHITE colour is an in-bounds tree hit. -/
theorem getNode_colour_of_ne_white {st : HexGame} {colour : NodeColour} {r c : ℕ}
    (hw : colour ≠ NodeColour.WHITE) (h : (getNode st r c).colour = colour) :
    r < st.m_size ∧ c < st.m_size ∧ (st.m_tree r c).colour = colour := by
  rw [getNode] at h
  split at h
  · rename_i hrc
    exact ⟨hrc.1, hrc.2, h⟩
  · exact absurd h.symm hw

theorem chain_to_rtg (N : ℕ) (C : ℕ → ℕ → NodeColour) (colour : NodeColour) :
    ∀ (l : List (ℕ × ℕ)),
      (∀ q ∈ l, okCell N C colour q) →
      List.Chain' (fun a b => adjacent a.1 a.2 b.1 b.2) l →
      ∀ a b, l.head? = some a → l.getLast? = some b →
        Relation.ReflTransGen (stepCell N C colour) a b := by
  intro l
  induction l with
  | nil =>
    intro _ _ a b ha
    simp at ha
  | cons x xs ih =>
    intro hok hch a b ha hb
    simp only [List.head?_cons, Option.some.injEq] at ha
    subst ha
    cases xs with
    | nil =>
      simp only [List.getLast?_singleton, Option.some.injEq] at hb
      subst hb
      exact Relation.ReflTransGen.refl
    | cons y ys =>
      rw [List.chain'_cons] at hch
      have hstep : stepCell N C colour x y :=
        ⟨hok x (by simp), hok y (by simp), hch.1⟩
      have htail : Relation.ReflTransGen (stepCell N C colour) y b := by
        rw [List.getLast?_cons_cons] at hb
        exact ih (fun q hq => hok q (List.mem_cons_of_mem x hq)) hch.2 y b rfl hb
      exact Relation.ReflTransGen.head hstep htail

theorem rtg_to_chain (N : ℕ) (C : ℕ → ℕ → NodeColour) (colour : NodeColour) (a : ℕ × ℕ)
    (hok : okCell N C colour a) :
    ∀ b : ℕ × ℕ, Relation.ReflTransGen (stepCell N C colour) a b →
      ∃ l : List (ℕ × ℕ), l ≠ [] ∧ (∀ q ∈ l, okCell N C colour q) ∧
        List.Chain' (fun u v => adjacent u.1 u.2 v.1 v.2) l ∧
        l.head? = some a ∧ l.getLast? = some b := by
  intro b hrtg
  induction hrtg with
  | refl =>
    exact ⟨[a], by simp, by simpa using hok, by simp, by simp, by simp⟩
  | tail hyz hstep ih =>
    rename_i y z
    obtain ⟨l, hne, hlok, hch, hhead, hlast⟩ := ih
    refine ⟨l ++ [z], by simp, ?_, ?_, ?_, ?_⟩
    · intro q hq
      rcases List.mem_append.mp hq with h | h
      · exact hlok q h
      · simp only [List.mem_singleton] at h
        subst h
        exact hstep.2.1
    · rw [List.chain'_append]
      refine ⟨hch, by simp, ?_⟩
      intro u hu v hv
      rw [hlast] at hu
      have hu2 : y = u := by simpa [Option.mem_def] using hu
      have hv2 : z = v := by simpa [Option.mem_def] using hv
      subst hu2
      subst hv2
      exact hstep.2.2
    · cases l with
      | nil => exact absurd rfl hne
      | cons w ws =>
        simpa using hhead
    · simp [List.getLast?_concat]

theorem hasChainList_iff_winChain (st : HexGame) (player : Player) :
    hasChainList st player ↔ winChain st.m_size (boardCtx st) player := by
  constructor
  · rintro ⟨l, hne, hok, hch, hhead, hlast⟩
    obtain ⟨a, ha⟩ := Option.ne_none_iff_exists'.mp (by
      cases l with
      | nil => exact absurd rfl hne
      | cons x xs => simp : l.head? ≠ none)
    obtain ⟨b, hb⟩ := Option.ne_none_iff_exists'.mp (by
      cases l with
      | nil => exact absurd rfl hne
      | cons x xs => simp : l.getLast? ≠ none)
    have hok2 : ∀ q ∈ l, okCell st.m_size (boardCtx st) (convertPlayer player) q := by
      intro q hq
      exact hok q hq
    exact ⟨a, b, by
        have := List.mem_of_mem_head? (by rw [ha]; simp : a ∈ l.head?)
        exact hok2 a this,
      hhead a ha, hlast b hb,
      chain_to_rtg st.m_size (boardCtx st) (convertPlayer player) l hok2 hch a b ha hb⟩
  · rintro ⟨a, b, hok, hstart, hend, hrtg⟩
    obtain ⟨l, hne, hlok, hch, hhead, hlast⟩ :=
      rtg_to_chain st.m_size (boardCtx st) (convertPlayer player) a hok b hrtg
    refine ⟨l, hne, fun q hq => hlok q hq, hch, ?_, ?_⟩
    · intro p hp
      rw [hhead] at hp
      simp only [Option.some.injEq] at hp
      subst hp
      exact hstart
    · intro p hp
      rw [hlast] at hp
      simp only [Option.some.injEq] at hp
      subst hp
      exact hend

/-- Size and colours of a state agree with a fixed colour context. -/
def matchesCtx (st : HexGame) (N : ℕ) (C : ℕ → ℕ → NodeColour) : Prop :=
  st.m_size = N ∧ ∀ r c, (st.m_tree r c).colour = C r c

/-- A cell reachable from some same-coloured cell of the starting
border through same-coloured adjacent cells. -/
def rootedAt (N : ℕ) (C : ℕ → ℕ → NodeColour) (player : Player) (p : ℕ × ℕ) : Prop :=
  ∃ a : ℕ × ℕ, okCell N C (convertPlayer player) a ∧ onStartBorder player a ∧
    Relation.ReflTransGen (stepCell N C (convertPlayer player)) a p

theorem matchesCtx_setTraverse {st : HexGame} {N : ℕ} {C : ℕ → ℕ → NodeColour} (row col : ℕ)
    (h : matchesCtx st N C) : matchesCtx (setTraverse st row col) N C :=
  ⟨h.1, fun r c => by rw [colour_setTraverse]; exact h.2 r c⟩

theorem matchesCtx_findPath {st : HexGame} {N : ℕ} {C : ℕ → ℕ → NodeColour}
    (fuel : ℕ) (colour : NodeColour) (net : List (ℕ × ℕ)) (h : matchesCtx st N C) :
    matchesCtx (findPath fuel st colour net).2 N C := by
  obtain ⟨hs, _, _, hcol, _⟩ := findPath_frame fuel st colour net
  exact ⟨hs.trans h.1, fun r c => (hcol r c).trans (h.2 r c)⟩

theorem findPath_border_cond (colour : NodeColour) (node : ℕ × ℕ) (s : ℕ) :
    (if colour = NodeColour.GREEN then (node.2, s - 1) else (node.1, s - 1)).1 =
      (if colour = NodeColour.GREEN then (node.2, s - 1) else (node.1, s - 1)).2 ↔
    endIdx colour node = s - 1 := by
  unfold endIdx
  split <;> simp

/-- Soundness of findPath: marks only spread to rooted cells, and a true
result exhibits a border-to-border connection. -/
theorem findPath_sound (N : ℕ) (C : ℕ → ℕ → NodeColour) (player : Player) :
    ∀ (fuel : ℕ) (net : List (ℕ × ℕ)) (st : HexGame), matchesCtx st N C →
      (∀ r c : ℕ, r < N → c < N → (st.m_tree r c).traversed = true →
        rootedAt N C player (r, c)) →
      (∀ q ∈ net, ∃ v : ℕ × ℕ, v.1 < N ∧ v.2 < N ∧
        (st.m_tree v.1 v.2).traversed = true ∧ okCell N C (convertPlayer player) v ∧
        adjacent v.1 v.2 q.1 q.2) →
      (∀ r c : ℕ, r < N → c < N →
        ((findPath fuel st (convertPlayer player) net).2.m_tree r c).traversed = true →
        rootedAt N C player (r, c)) ∧
      ((findPath fuel st (convertPlayer player) net).1 = true → winChain N C player) := by
  intro fuel
  induction fuel with
  | zero =>
    intro net st hm h1 h2
    exact ⟨fun r c hr hc hmk => h1 r c hr hc (by simpa [findPath] using hmk), by simp [findPath]⟩
  | succ f ih =>
    intro net
    induction net with
    | nil =>
      intro st hm h1 h2
      exact ⟨fun r c hr hc hmk => h1 r c hr hc (by simpa [findPath] using hmk), by simp [findPath]⟩
    | cons node rest ihn =>
      intro st hm h1 h2
      -- facts shared by the colour-matching branches
      rw [findPath]
      by_cases hb1 : (if convertPlayer player = NodeColour.GREEN then (node.2, st.m_size - 1)
          else (node.1, st.m_size - 1)).1 =
          (if convertPlayer player = NodeColour.GREEN then (node.2, st.m_size - 1)
          else (node.1, st.m_size - 1)).2 ∧
          (getNode st node.1 node.2).colour = convertPlayer player
      · rw [if_pos hb1]
        refine ⟨fun r c hr hc hmk => h1 r c hr hc hmk, fun _ => ?_⟩
        obtain ⟨hnr, hnc, hntree⟩ :=
          getNode_colour_of_ne_white (convertPlayer_ne_white player) hb1.2
        have hokn : okCell N C (convertPlayer player) node :=
          ⟨hm.1 ▸ hnr, hm.1 ▸ hnc, by rw [← hm.2 node.1 node.2]; exact hntree⟩
        obtain ⟨v, hv1, hv2, hvmk, hvok, hvadj⟩ := h2 node (by simp)
        obtain ⟨a, haok, hastart, hartg⟩ := h1 v.1 v.2 hv1 hv2 hvmk
        have hend : onEndBorder player N node := by
          rw [← endIdx_eq_iff_onEndBorder]
          have := (findPath_border_cond (convertPlayer player) node st.m_size).mp hb1.1
          rw [hm.1] at this
          exact this
        refine ⟨a, node, haok, hastart, hend, ?_⟩
        exact Relation.ReflTransGen.tail hartg ⟨hvok, hokn, by
          obtain ⟨v1, v2⟩ := v
          exact hvadj⟩
      · rw [if_neg hb1]
        by_cases hb2 : (getNode st node.1 node.2).colour = convertPlayer player ∧
            (getNode st node.1 node.2).traversed = false
        · rw [if_pos hb2]
          obtain ⟨hnr, hnc, hntree⟩ :=
            getNode_colour_of_ne_white (convertPlayer_ne_white player) hb2.1
          have hokn : okCell N C (convertPlayer player) node :=
            ⟨hm.1 ▸ hnr, hm.1 ▸ hnc, by rw [← hm.2 node.1 node.2]; exact hntree⟩
          obtain ⟨v, hv1, hv2, hvmk, hvok, hvadj⟩ := h2 node (by simp)
          obtain ⟨a, haok, hastart, hartg⟩ := h1 v.1 v.2 hv1 hv2 hvmk
          have hrootn : rootedAt N C player node := by
            refine ⟨a, haok, hastart, ?_⟩
            exact Relation.ReflTransGen.tail hartg ⟨hvok, hokn, by
              obtain ⟨v1, v2⟩ := v
              exact hvadj⟩
          have hm1 : matchesCtx (setTraverse st node.1 node.2) N C :=
            matchesCtx_setTraverse node.1 node.2 hm
          have h1s : ∀ r c : ℕ, r < N → c < N →
              ((setTraverse st node.1 node.2).m_tree r c).traversed = true →
              rootedAt N C player (r, c) := by
            intro r c hr hc hmk
            rw [tree_setTraverse] at hmk
            by_cases hrc : r = node.1 ∧ c = node.2
            · obtain ⟨rfl, rfl⟩ := hrc
              exact hrootn
            · rw [if_neg hrc] at hmk
              exact h1 r c hr hc hmk
          have h2s : ∀ q ∈ connections st.m_size node.1 node.2, ∃ v : ℕ × ℕ,
              v.1 < N ∧ v.2 < N ∧
              ((setTraverse st node.1 node.2).m_tree v.1 v.2).traversed = true ∧
              okCell N C (convertPlayer player) v ∧ adjacent v.1 v.2 q.1 q.2 := by
            intro q hq
            obtain ⟨q1, q2⟩ := q
            rw [mem_connections_iff_adjacent] at hq
            refine ⟨node, hm.1 ▸ hnr, hm.1 ▸ hnc, ?_, hokn, hq.2.2⟩
            rw [tree_setTraverse, if_pos ⟨rfl, rfl⟩]
          obtain ⟨ih1, ih2⟩ := ih (connections st.m_size node.1 node.2)
            (setTraverse st node.1 node.2) hm1 h1s h2s
          have hm2 : matchesCtx (findPath f (setTraverse st node.1 node.2)
              (convertPlayer player) (connections st.m_size node.1 node.2)).2 N C :=
            matchesCtx_findPath f (convertPlayer player) _ hm1
          have h2r : ∀ q ∈ rest, ∃ v : ℕ × ℕ, v.1 < N ∧ v.2 < N ∧
              ((findPath f (setTraverse st node.1 node.2) (convertPlayer player)
                (connections st.m_size node.1 node.2)).2.m_tree v.1 v.2).traversed = true ∧
              okCell N C (convertPlayer player) v ∧ adjacent v.1 v.2 q.1 q.2 := by
            intro q hq
            obtain ⟨v, hv1, hv2, hvmk, hvok, hvadj⟩ := h2 q (by simp [hq])
            refine ⟨v, hv1, hv2, ?_, hvok, hvadj⟩
            refine (findPath_frame f (setTraverse st node.1 node.2) (convertPlayer player)
              (connections st.m_size node.1 node.2)).2.2.2.2 v.1 v.2 ?_
            rw [tree_setTraverse]
            split
            · rfl
            · exact hvmk
          obtain ⟨ihn1, ihn2⟩ := ihn (findPath f (setTraverse st node.1 node.2)
            (convertPlayer player) (connections st.m_size node.1 node.2)).2 hm2 ih1 h2r
          refine ⟨ihn1, fun hwin => ?_⟩
          rcases Bool.or_eq_true_iff.mp hwin with hw | hw
          · exact ih2 hw
          · exact ihn2 hw
        · rw [if_neg hb2]
          exact ihn st hm h1 (fun q hq => h2 q (by simp [hq]))

/-! ### Fuel bound and completeness of the path search -/

/-- Number of unmarked cells of the grid: the findPath recursion depth
bound. -/
def unmarkedCount (st : HexGame) : ℕ :=
  ((Finset.range st.m_size ×ˢ Finset.range st.m_size).filter
    (fun p => (st.m_tree p.1 p.2).traversed = false)).card

theorem unmarkedCount_le (st : HexGame) : unmarkedCount st ≤ st.m_size * st.m_size := by
  unfold unmarkedCount
  calc ((Finset.range st.m_size ×ˢ Finset.range st.m_size).filter
      (fun p => (st.m_tree p.1 p.2).traversed = false)).card
      ≤ (Finset.range st.m_size ×ˢ Finset.range st.m_size).card :=
        Finset.card_filter_le _ _
    _ = st.m_size * st.m_size := by rw [Finset.card_product, Finset.card_range]

theorem unmarkedCount_setTraverse {st : HexGame} {row col : ℕ} (hr : row < st.m_size)
    (hc : col < st.m_size) (hu : (st.m_tree row col).traversed = false) :
    unmarkedCount (setTraverse st row col) < unmarkedCount st := by
  unfold unmarkedCount
  rw [m_size_setTraverse]
  apply Finset.card_lt_card
  constructor
  · intro p hp
    simp only [Finset.mem_filter] at hp ⊢
    refine ⟨hp.1, ?_⟩
    have := hp.2
    rw [tree_setTraverse] at this
    by_cases hprc : p.1 = row ∧ p.2 = col
    · rw [if_pos hprc] at this
      simp at this
    · rwa [if_neg hprc] at this
  · intro hsub
    have hmem : (row, col) ∈ (Finset.range st.m_size ×ˢ Finset.range st.m_size).filter
        (fun p => (st.m_tree p.1 p.2).traversed = false) := by
      simp only [Finset.mem_filter, Finset.mem_product, Finset.mem_range]
      exact ⟨⟨hr, hc⟩, hu⟩
    have := hsub hmem
    simp only [Finset.mem_filter] at this
    rw [tree_setTraverse, if_pos ⟨rfl, rfl⟩] at this
    simp at this

theorem unmarkedCount_le_of_monotone {st st2 : HexGame} (hs : st2.m_size = st.m_size)
    (hmk : ∀ r c : ℕ, (st.m_tree r c).traversed = true → (st2.m_tree r c).traversed = true) :
    unmarkedCount st2 ≤ unmarkedCount st := by
  unfold unmarkedCount
  rw [hs]
  apply Finset.card_le_card
  intro p hp
  simp only [Finset.mem_filter] at hp ⊢
  refine ⟨hp.1, ?_⟩
  by_contra hcon
  have h2 := hmk p.1 p.2 (by
    cases htr : (st.m_tree p.1 p.2).traversed
    · exact absurd htr hcon
    · rfl)
  rw [hp.2] at h2
  exact absurd h2 (by simp)

theorem unmarkedCount_findPath_le (fuel : ℕ) (st : HexGame) (colour : NodeColour)
    (net : List (ℕ × ℕ)) :
    unmarkedCount (findPath fuel st colour net).2 ≤ unmarkedCount st := by
  obtain ⟨hs, _, _, _, hmk⟩ := findPath_frame fuel st colour net
  exact unmarkedCount_le_of_monotone hs hmk

/-- Completeness of findPath: when the search returns false with enough
fuel, every same-coloured cell of the net ends up marked and off the
ending border, and every newly marked cell has all its same-coloured
neighbours marked and off the ending border. -/
theorem findPath_complete (N : ℕ) (C : ℕ → ℕ → NodeColour) (colour : NodeColour)
    (hw : colour ≠ NodeColour.WHITE) :
    ∀ (fuel : ℕ) (net : List (ℕ × ℕ)) (st : HexGame), matchesCtx st N C →
      unmarkedCount st < fuel →
      (findPath fuel st colour net).1 = false →
      (∀ q ∈ net, q.1 < N → q.2 < N → C q.1 q.2 = colour →
        ((findPath fuel st colour net).2.m_tree q.1 q.2).traversed = true ∧
        ¬(endIdx colour q = N - 1)) ∧
      (∀ r c : ℕ, r < N → c < N →
        ((findPath fuel st colour net).2.m_tree r c).traversed = true →
        (st.m_tree r c).traversed = true ∨
        (¬(endIdx colour (r, c) = N - 1) ∧
          ∀ q ∈ connections N r c, C q.1 q.2 = colour →
            ((findPath fuel st colour net).2.m_tree q.1 q.2).traversed = true ∧
            ¬(endIdx colour q = N - 1))) := by
  intro fuel
  induction fuel with
  | zero =>
    intro net st hm hfuel
    exact absurd hfuel (by omega)
  | succ f ih =>
    intro net
    induction net with
    | nil =>
      intro st hm hfuel hfalse
      refine ⟨by simp, fun r c hr hc hmk => Or.inl (by simpa [findPath] using hmk)⟩
    | cons node rest ihn =>
      intro st hm hfuel hfalse
      rw [findPath] at hfalse ⊢
      by_cases hb1 : (if colour = NodeColour.GREEN then (node.2, st.m_size - 1)
          else (node.1, st.m_size - 1)).1 =
          (if colour = NodeColour.GREEN then (node.2, st.m_size - 1)
          else (node.1, st.m_size - 1)).2 ∧
          (getNode st node.1 node.2).colour = colour
      · rw [if_pos hb1] at hfalse
        simp at hfalse
      · rw [if_neg hb1] at hfalse ⊢
        by_cases hb2 : (getNode st node.1 node.2).colour = colour ∧
            (getNode st node.1 node.2).traversed = false
        · rw [if_pos hb2] at hfalse ⊢
          obtain ⟨hnr, hnc, hntree⟩ := getNode_colour_of_ne_white hw hb2.1
          have hnrN : node.1 < N := hm.1 ▸ hnr
          have hncN : node.2 < N := hm.1 ▸ hnc
          have hnunm : (st.m_tree node.1 node.2).traversed = false := by
            have := hb2.2
            rw [getNode, if_pos ⟨hnr, hnc⟩] at this
            exact this
          have hnend : ¬(endIdx colour node = N - 1) := by
            intro hend
            exact hb1 ⟨(findPath_border_cond colour node st.m_size).mpr (by rw [hm.1]; exact hend),
              hb2.1⟩
          obtain ⟨hres1, hres2⟩ := Bool.or_eq_false_iff.mp hfalse
          have hm1 : matchesCtx (setTraverse st node.1 node.2) N C :=
            matchesCtx_setTraverse node.1 node.2 hm
          have hfuel1 : unmarkedCount (setTraverse st node.1 node.2) < f := by
            have := unmarkedCount_setTraverse hnr hnc hnunm
            omega
          obtain ⟨ih1a, ih1b⟩ := ih (connections st.m_size node.1 node.2)
            (setTraverse st node.1 node.2) hm1 hfuel1 hres1
          have hm2 : matchesCtx (findPath f (setTraverse st node.1 node.2) colour
              (connections st.m_size node.1 node.2)).2 N C :=
            matchesCtx_findPath f colour _ hm1
          have hfuel2 : unmarkedCount (findPath f (setTraverse st node.1 node.2) colour
              (connections st.m_size node.1 node.2)).2 < f + 1 := by
            have h1 := unmarkedCount_findPath_le f (setTraverse st node.1 node.2) colour
              (connections st.m_size node.1 node.2)
            omega
          obtain ⟨ih2a, ih2b⟩ := ihn (findPath f (setTraverse st node.1 node.2) colour
            (connections st.m_size node.1 node.2)).2 hm2 hfuel2 hres2
          have hmono2 : ∀ r c : ℕ,
              ((findPath f (setTraverse st node.1 node.2) colour
                (connections st.m_size node.1 node.2)).2.m_tree r c).traversed = true →
              ((findPath (f + 1) (findPath f (setTraverse st node.1 node.2) colour
                (connections st.m_size node.1 node.2)).2 colour rest).2.m_tree r c).traversed =
                true :=
            (findPath_frame (f + 1) _ colour rest).2.2.2.2
          have hmarked1 : ∀ r c : ℕ,
              ((setTraverse st node.1 node.2).m_tree r c).traversed = true →
              ((findPath (f + 1) (findPath f (setTraverse st node.1 node.2) colour
                (connections st.m_size node.1 node.2)).2 colour rest).2.m_tree r c).traversed =
                true := by
            intro r c hmk
            exact hmono2 r c ((findPath_frame f _ colour _).2.2.2.2 r c hmk)
          have hclosure_node : ∀ q ∈ connections N node.1 node.2, C q.1 q.2 = colour →
              ((findPath (f + 1) (findPath f (setTraverse st node.1 node.2) colour
                (connections st.m_size node.1 node.2)).2 colour rest).2.m_tree q.1 q.2).traversed
                = true ∧ ¬(endIdx colour q = N - 1) := by
            intro q hq hqc
            have hqmem : q ∈ connections st.m_size node.1 node.2 := by
              rw [hm.1]
              exact hq
            obtain ⟨q1, q2⟩ := q
            rw [mem_connections] at hq
            obtain ⟨hmk, hend⟩ := ih1a (q1, q2) hqmem hq.1 hq.2.1 hqc
            exact ⟨hmono2 q1 q2 hmk, hend⟩
          refine ⟨?_, ?_⟩
          · intro q hq hqr hqc hqcol
            rcases List.mem_cons.mp hq with rfl | hqrest
            · refine ⟨?_, hnend⟩
              refine hmarked1 q.1 q.2 ?_
              rw [tree_setTraverse, if_pos ⟨rfl, rfl⟩]
            · exact ih2a q hqrest hqr hqc hqcol
          · intro r c hr hc hmk
            rcases ih2b r c hr hc hmk with hmk1 | hclo
            · rcases ih1b r c hr hc hmk1 with hmk2 | hclo1
              · rw [tree_setTraverse] at hmk2
                by_cases hrc : r = node.1 ∧ c = node.2
                · obtain ⟨rfl, rfl⟩ := hrc
                  exact Or.inr ⟨hnend, hclosure_node⟩
                · rw [if_neg hrc] at hmk2
                  exact Or.inl hmk2
              · refine Or.inr ⟨hclo1.1, ?_⟩
                intro q hq hqcol
                obtain ⟨hqmk, hqend⟩ := hclo1.2 q hq hqcol
                exact ⟨hmono2 q.1 q.2 hqmk, hqend⟩
            · exact Or.inr hclo
        · rw [if_neg hb2] at hfalse ⊢
          obtain ⟨iha, ihb⟩ := ihn st hm hfuel hfalse
          refine ⟨?_, ihb⟩
          intro q hq hqr hqc hqcol
          rcases List.mem_cons.mp hq with rfl | hqrest
          · have hqtree : (st.m_tree q.1 q.2).colour = colour := by
              rw [hm.2 q.1 q.2]
              exact hqcol
            have hget : (getNode st q.1 q.2).colour = colour := by
              rw [getNode, if_pos ⟨hm.1 ▸ hqr, hm.1 ▸ hqc⟩]
              exact hqtree
            have hmarked : (getNode st q.1 q.2).traversed = true := by
              by_contra hcon
              exact hb2 ⟨hget, by
                cases htr : (getNode st q.1 q.2).traversed
                · rfl
                · exact absurd htr hcon⟩
            have hqend : ¬(endIdx colour q = N - 1) := by
              intro hend
              exact hb1 ⟨(findPath_border_cond colour q st.m_size).mpr
                (by rw [hm.1]; exact hend), hget⟩
            refine ⟨?_, hqend⟩
            have hmkst : (st.m_tree q.1 q.2).traversed = true := by
              rw [getNode, if_pos ⟨hm.1 ▸ hqr, hm.1 ▸ hqc⟩] at hmarked
              exact hmarked
            exact (findPath_frame (f + 1) st colour rest).2.2.2.2 q.1 q.2 hmkst
          · exact iha q hqrest hqr hqc hqcol

theorem startCell_onStartBorder (player : Player) (idx : ℕ) :
    onStartBorder player (startCell player idx) := by
  cases player <;> rfl

/-- One-step unfolding of the seed loop, with the seed written through
startCell. -/
theorem seedLoop_cons_eq (fuel : ℕ) (colour : NodeColour) (player : Player) (idx : ℕ)
    (rest : List ℕ) (st : HexGame) :
    seedLoop fuel colour player (idx :: rest) st =
      (if (getNode st (startCell player idx).1 (startCell player idx).2).colour = colour ∧
          (getNode st (startCell player idx).1 (startCell player idx).2).traversed = false then
        (if (findPath fuel (setTraverse st (startCell player idx).1 (startCell player idx).2)
              colour
              (connections st.m_size (startCell player idx).1 (startCell player idx).2)).1 then
          (true, (findPath fuel (setTraverse st (startCell player idx).1 (startCell player idx).2)
            colour
            (connections st.m_size (startCell player idx).1 (startCell player idx).2)).2)
        else seedLoop fuel colour player rest
          (findPath fuel (setTraverse st (startCell player idx).1 (startCell player idx).2)
            colour
            (connections st.m_size (startCell player idx).1 (startCell player idx).2)).2)
      else seedLoop fuel colour player rest st) := by
  cases player <;> rfl

/-- Soundness of the seed loop: new marks are rooted at the starting
border, and a true result exhibits a winning connection. -/
theorem seedLoop_sound (N : ℕ) (C : ℕ → ℕ → NodeColour) (player : Player) :
    ∀ (idxs : List ℕ) (st : HexGame) (fuel : ℕ), matchesCtx st N C →
      (∀ r c : ℕ, r < N → c < N → (st.m_tree r c).traversed = true →
        rootedAt N C player (r, c)) →
      (∀ r c : ℕ, r < N → c < N →
        ((seedLoop fuel (convertPlayer player) player idxs st).2.m_tree r c).traversed = true →
        rootedAt N C player (r, c)) ∧
      ((seedLoop fuel (convertPlayer player) player idxs st).1 = true → winChain N C player) := by
  intro idxs
  induction idxs with
  | nil =>
    intro st fuel hm h1
    exact ⟨fun r c hr hc hmk => h1 r c hr hc (by simpa [seedLoop] using hmk), by simp [seedLoop]⟩
  | cons idx rest ihl =>
    intro st fuel hm h1
    rw [seedLoop_cons_eq]
    by_cases hseed : (getNode st (startCell player idx).1 (startCell player idx).2).colour =
        convertPlayer player ∧
        (getNode st (startCell player idx).1 (startCell player idx).2).traversed = false
    · rw [if_pos hseed]
      obtain ⟨hsr, hsc, hstree⟩ :=
        getNode_colour_of_ne_white (convertPlayer_ne_white player) hseed.1
      have hoks : okCell N C (convertPlayer player) (startCell player idx) :=
        ⟨hm.1 ▸ hsr, hm.1 ▸ hsc, by
          rw [← hm.2 (startCell player idx).1 (startCell player idx).2]
          exact hstree⟩
      have hroots : rootedAt N C player (startCell player idx) :=
        ⟨startCell player idx, hoks, startCell_onStartBorder player idx,
          Relation.ReflTransGen.refl⟩
      have hm1 : matchesCtx (setTraverse st (startCell player idx).1 (startCell player idx).2)
          N C := matchesCtx_setTraverse _ _ hm
      have h1s : ∀ r c : ℕ, r < N → c < N →
          ((setTraverse st (startCell player idx).1 (startCell player idx).2).m_tree r
            c).traversed = true → rootedAt N C player (r, c) := by
        intro r c hr hc hmk
        rw [tree_setTraverse] at hmk
        by_cases hrc : r = (startCell player idx).1 ∧ c = (startCell player idx).2
        · obtain ⟨rfl, rfl⟩ := hrc
          exact hroots
        · rw [if_neg hrc] at hmk
          exact h1 r c hr hc hmk
      have h2s : ∀ q ∈ connections st.m_size (startCell player idx).1 (startCell player idx).2,
          ∃ v : ℕ × ℕ, v.1 < N ∧ v.2 < N ∧
          ((setTraverse st (startCell player idx).1 (startCell player idx).2).m_tree v.1
            v.2).traversed = true ∧
          okCell N C (convertPlayer player) v ∧ adjacent v.1 v.2 q.1 q.2 := by
        intro q hq
        obtain ⟨q1, q2⟩ := q
        rw [mem_connections_iff_adjacent] at hq
        refine ⟨startCell player idx, hm.1 ▸ hsr, hm.1 ▸ hsc, ?_, hoks, hq.2.2⟩
        rw [tree_setTraverse, if_pos ⟨rfl, rfl⟩]
      obtain ⟨fh1, fwin⟩ := findPath_sound N C player fuel
        (connections st.m_size (startCell player idx).1 (startCell player idx).2)
        (setTraverse st (startCell player idx).1 (startCell player idx).2) hm1 h1s h2s
      by_cases hres : (findPath fuel
          (setTraverse st (startCell player idx).1 (startCell player idx).2)
          (convertPlayer player)
          (connections st.m_size (startCell player idx).1 (startCell player idx).2)).1 = true
      · rw [if_pos hres]
        exact ⟨fh1, fun _ => fwin hres⟩
      · rw [if_neg hres]
        refine ihl _ fuel (matchesCtx_findPath fuel (convertPlayer player) _ hm1) fh1
    · rw [if_neg hseed]
      exact ihl st fuel hm h1

theorem endIdx_startCell (player : Player) (idx N : ℕ) (h2 : 2 ≤ N) :
    ¬(endIdx (convertPlayer player) (startCell player idx) = N - 1) := by
  cases player <;> simp [endIdx, convertPlayer, startCell] <;> omega

/-- Completeness of the seed loop: when the loop returns false with
enough fuel (on a board of size at least two), every same-coloured seed
cell is marked at the end, and every newly marked cell is off the ending
border with all its same-coloured neighbours marked. -/
theorem seedLoop_complete (N : ℕ) (C : ℕ → ℕ → NodeColour) (player : Player) (h2N : 2 ≤ N) :
    ∀ (idxs : List ℕ) (st : HexGame) (fuel : ℕ), matchesCtx st N C →
      unmarkedCount st < fuel →
      (seedLoop fuel (convertPlayer player) player idxs st).1 = false →
      (∀ idx ∈ idxs, (startCell player idx).1 < N → (startCell player idx).2 < N →
        C (startCell player idx).1 (startCell player idx).2 = convertPlayer player →
        ((seedLoop fuel (convertPlayer player) player idxs st).2.m_tree
          (startCell player idx).1 (startCell player idx).2).traversed = true) ∧
      (∀ r c : ℕ, r < N → c < N →
        ((seedLoop fuel (convertPlayer player) player idxs st).2.m_tree r c).traversed = true →
        (st.m_tree r c).traversed = true ∨
        (¬(endIdx (convertPlayer player) (r, c) = N - 1) ∧
          ∀ q ∈ connections N r c, C q.1 q.2 = convertPlayer player →
            ((seedLoop fuel (convertPlayer player) player idxs st).2.m_tree q.1 q.2).traversed =
              true ∧
            ¬(endIdx (convertPlayer player) q = N - 1))) := by
  intro idxs
  induction idxs with
  | nil =>
    intro st fuel hm hfuel hfalse
    exact ⟨by simp, fun r c hr hc hmk => Or.inl (by simpa [seedLoop] using hmk)⟩
  | cons idx rest ihl =>
    intro st fuel hm hfuel hfalse
    rw [seedLoop_cons_eq] at hfalse ⊢
    by_cases hseed : (getNode st (startCell player idx).1 (startCell player idx).2).colour =
        convertPlayer player ∧
        (getNode st (startCell player idx).1 (startCell player idx).2).traversed = false
    · rw [if_pos hseed] at hfalse ⊢
      obtain ⟨hsr, hsc, hstree⟩ :=
        getNode_colour_of_ne_white (convertPlayer_ne_white player) hseed.1
      have hsunm : (st.m_tree (startCell player idx).1 (startCell player idx).2).traversed =
          false := by
        have := hseed.2
        rw [getNode, if_pos ⟨hsr, hsc⟩] at this
        exact this
      by_cases hres : (findPath fuel
          (setTraverse st (startCell player idx).1 (startCell player idx).2)
          (convertPlayer player)
          (connections st.m_size (startCell player idx).1 (startCell player idx).2)).1 = true
      · rw [if_pos hres] at hfalse
        simp at hfalse
      · rw [if_neg hres] at hfalse ⊢
        have hm1 : matchesCtx (setTraverse st (startCell player idx).1 (startCell player idx).2)
            N C := matchesCtx_setTraverse _ _ hm
        have hfuel1 : unmarkedCount
            (setTraverse st (startCell player idx).1 (startCell player idx).2) < fuel := by
          have := unmarkedCount_setTraverse hsr hsc hsunm
          omega
        obtain ⟨fca, fcb⟩ := findPath_complete N C (convertPlayer player)
          (convertPlayer_ne_white player) fuel
          (connections st.m_size (startCell player idx).1 (startCell player idx).2)
          (setTraverse st (startCell player idx).1 (startCell player idx).2) hm1 hfuel1
          (by
            cases hfp : (findPath fuel
                (setTraverse st (startCell player idx).1 (startCell player idx).2)
                (convertPlayer player)
                (connections st.m_size (startCell player idx).1 (startCell player idx).2)).1
            · rfl
            · exact absurd hfp hres)
        have hm2 : matchesCtx (findPath fuel
            (setTraverse st (startCell player idx).1 (startCell player idx).2)
            (convertPlayer player)
            (connections st.m_size (startCell player idx).1 (startCell player idx).2)).2 N C :=
          matchesCtx_findPath fuel (convertPlayer player) _ hm1
        have hfuel2 : unmarkedCount (findPath fuel
            (setTraverse st (startCell player idx).1 (startCell player idx).2)
            (convertPlayer player)
            (connections st.m_size (startCell player idx).1 (startCell player idx).2)).2 <
            fuel := by
          have := unmarkedCount_findPath_le fuel
            (setTraverse st (startCell player idx).1 (startCell player idx).2)
            (convertPlayer player)
            (connections st.m_size (startCell player idx).1 (startCell player idx).2)
          omega
        obtain ⟨ih1, ih2⟩ := ihl _ fuel hm2 hfuel2 hfalse
        have hmono : ∀ r c : ℕ, ((findPath fuel
            (setTraverse st (startCell player idx).1 (startCell player idx).2)
            (convertPlayer player)
            (connections st.m_size (startCell player idx).1 (startCell player idx).2)).2.m_tree
              r c).traversed = true →
            ((seedLoop fuel (convertPlayer player) player rest (findPath fuel
              (setTraverse st (startCell player idx).1 (startCell player idx).2)
              (convertPlayer player)
              (connections st.m_size (startCell player idx).1
                (startCell player idx).2)).2).2.m_tree r c).traversed = true :=
          (seedLoop_frame fuel (convertPlayer player) player rest _).2.2.2.2
        refine ⟨?_, ?_⟩
        · intro idx2 hidx2 hr2 hc2 hcol2
          rcases List.mem_cons.mp hidx2 with rfl | hidx2r
          · refine hmono _ _ ?_
            refine (findPath_frame fuel _ (convertPlayer player) _).2.2.2.2 _ _ ?_
            rw [tree_setTraverse, if_pos ⟨rfl, rfl⟩]
          · exact ih1 idx2 hidx2r hr2 hc2 hcol2
        · intro r c hr hc hmk
          rcases ih2 r c hr hc hmk with hmk1 | hclo
          · rcases fcb r c hr hc hmk1 with hmk2 | hclo1
            · rw [tree_setTraverse] at hmk2
              by_cases hrc : r = (startCell player idx).1 ∧ c = (startCell player idx).2
              · obtain ⟨hrc1, hrc2⟩ := hrc
                subst hrc1
                subst hrc2
                refine Or.inr ⟨?_, ?_⟩
                · have := endIdx_startCell player idx N h2N
                  simpa using this
                · intro q hq hqcol
                  obtain ⟨q1, q2⟩ := q
                  have hqmem : (q1, q2) ∈ connections st.m_size (startCell player idx).1
                      (startCell player idx).2 := by
                    rw [hm.1]
                    exact hq
                  have hqb := (mem_connections N _ _ _ _).mp hq
                  obtain ⟨hqmk, hqend⟩ := fca (q1, q2) hqmem hqb.1 hqb.2.1 hqcol
                  exact ⟨hmono q1 q2 hqmk, hqend⟩
              · rw [if_neg hrc] at hmk2
                exact Or.inl hmk2
            · refine Or.inr ⟨hclo1.1, ?_⟩
              intro q hq hqcol
              obtain ⟨hqmk, hqend⟩ := hclo1.2 q hq hqcol
              exact ⟨hmono q.1 q.2 hqmk, hqend⟩
          · exact Or.inr hclo
    · rw [if_neg hseed] at hfalse ⊢
      obtain ⟨ih1, ih2⟩ := ihl st fuel hm hfuel hfalse
      refine ⟨?_, ih2⟩
      intro idx2 hidx2 hr2 hc2 hcol2
      rcases List.mem_cons.mp hidx2 with rfl | hidx2r
      · have hget : (getNode st (startCell player idx2).1 (startCell player idx2).2).colour =
            convertPlayer player := by
          rw [getNode, if_pos ⟨hm.1 ▸ hr2, hm.1 ▸ hc2⟩, hm.2]
          exact hcol2
        have hmkst : (st.m_tree (startCell player idx2).1
            (startCell player idx2).2).traversed = true := by
          by_contra hcon
          refine hseed ⟨hget, ?_⟩
          rw [getNode, if_pos ⟨hm.1 ▸ hr2, hm.1 ▸ hc2⟩]
          cases htr : (st.m_tree (startCell player idx2).1 (startCell player idx2).2).traversed
          · rfl
          · exact absurd htr hcon
        exact (seedLoop_frame fuel (convertPlayer player) player rest st).2.2.2.2 _ _ hmkst
      · exact ih1 idx2 hidx2r hr2 hc2 hcol2

theorem checkWin_fst_eq (st : HexGame) (player : Player) :
    (checkWin st player).1 =
      (seedLoop (st.m_size * st.m_size + 1) (convertPlayer player) player
        (List.range st.m_size) st).1 := rfl

theorem checkWin_sound (st : HexGame) (player : Player) (hm : marksClear st)
    (htrue : (checkWin st player).1 = true) :
    winChain st.m_size (boardCtx st) player := by
  rw [checkWin_fst_eq] at htrue
  have hmCtx : matchesCtx st st.m_size (boardCtx st) := ⟨rfl, fun r c => rfl⟩
  have h1 : ∀ r c : ℕ, r < st.m_size → c < st.m_size → (st.m_tree r c).traversed = true →
      rootedAt st.m_size (boardCtx st) player (r, c) := by
    intro r c hr hc hmk
    rw [hm r c hr hc] at hmk
    exact absurd hmk (by simp)
  exact (seedLoop_sound st.m_size (boardCtx st) player (List.range st.m_size) st
    (st.m_size * st.m_size + 1) hmCtx h1).2 htrue

theorem checkWin_complete (st : HexGame) (player : Player) (hm : marksClear st)
    (h2N : 2 ≤ st.m_size) (hwin : winChain st.m_size (boardCtx st) player) :
    (checkWin st player).1 = true := by
  by_contra hcon
  have hfalse : (seedLoop (st.m_size * st.m_size + 1) (convertPlayer player) player
      (List.range st.m_size) st).1 = false := by
    rw [← checkWin_fst_eq]
    cases hcw : (checkWin st player).1
    · rfl
    · exact absurd hcw hcon
  have hmCtx : matchesCtx st st.m_size (boardCtx st) := ⟨rfl, fun r c => rfl⟩
  have hfuel : unmarkedCount st < st.m_size * st.m_size + 1 := by
    have := unmarkedCount_le st
    omega
  obtain ⟨sc1, sc2⟩ := seedLoop_complete st.m_size (boardCtx st) player h2N
    (List.range st.m_size) st (st.m_size * st.m_size + 1) hmCtx hfuel hfalse
  obtain ⟨a, b, hoka, hstarta, hendb, hrtg⟩ := hwin
  obtain ⟨idx, hidxmem, hidxeq⟩ : ∃ idx ∈ List.range st.m_size, startCell player idx = a := by
    cases player
    · refine ⟨a.1, by simpa using hoka.1, ?_⟩
      show (a.1, 0) = a
      have : a.2 = 0 := hstarta
      rw [← this]
    · refine ⟨a.2, by simpa using hoka.2.1, ?_⟩
      show (0, a.2) = a
      have : a.1 = 0 := hstarta
      rw [← this]
  have hamk : ((seedLoop (st.m_size * st.m_size + 1) (convertPlayer player) player
      (List.range st.m_size) st).2.m_tree a.1 a.2).traversed = true := by
    have := sc1 idx hidxmem (by rw [hidxeq]; exact hoka.1) (by rw [hidxeq]; exact hoka.2.1)
      (by rw [hidxeq]; exact hoka.2.2)
    rw [hidxeq] at this
    exact this
  have hprop : ∀ x : ℕ × ℕ,
      Relation.ReflTransGen (stepCell st.m_size (boardCtx st) (convertPlayer player)) a x →
      okCell st.m_size (boardCtx st) (convertPlayer player) x ∧
      ((seedLoop (st.m_size * st.m_size + 1) (convertPlayer player) player
        (List.range st.m_size) st).2.m_tree x.1 x.2).traversed = true := by
    intro x hx
    induction hx with
    | refl => exact ⟨hoka, hamk⟩
    | tail hsteps hstep ihx =>
      rename_i y z
      obtain ⟨hoky, hmky⟩ := ihx
      refine ⟨hstep.2.1, ?_⟩
      rcases sc2 y.1 y.2 hoky.1 hoky.2.1 hmky with hmkst | hclo
      · rw [hm y.1 y.2 hoky.1 hoky.2.1] at hmkst
        exact absurd hmkst (by simp)
      · have hzmem : (z.1, z.2) ∈ connections st.m_size y.1 y.2 := by
          rw [mem_connections_iff_adjacent]
          refine ⟨hstep.2.1.1, hstep.2.1.2.1, ?_⟩
          have := hstep.2.2
          obtain ⟨z1, z2⟩ := z
          exact this
        exact (hclo.2 (z.1, z.2) hzmem hstep.2.1.2.2).1
  obtain ⟨hokb, hmkb⟩ := hprop b hrtg
  rcases sc2 b.1 b.2 hokb.1 hokb.2.1 hmkb with hmkst | hclo
  · rw [hm b.1 b.2 hokb.1 hokb.2.1] at hmkst
    exact absurd hmkst (by simp)
  · refine hclo.1 ?_
    have := (endIdx_eq_iff_onEndBorder player st.m_size b).mpr hendb
    simpa using this

set_option maxHeartbeats 800000 in
/-- C1: for a board of size 3 to 11 with no residual traverse marks,
checkWin returns true exactly when a chain of the player's colour
connects the player's starting border to the player's ending border
(column 0 to column size - 1 for FIRST/GREEN, row 0 to row size - 1 for
SECOND/RED).  The right-hand side is a pure existence statement, so the
result depends only on reachability and not on any exploration order. -/
theorem checkWin_iff_connection (st : HexGame) (player : Player) (h3 : 3 ≤ st.m_size)
    (h11 : st.m_size ≤ 11) (hm : marksClear st) :
    (checkWin st player).1 = true ↔ hasChainList st player := by
  rw [hasChainList_iff_winChain]
  exact ⟨checkWin_sound st player hm, checkWin_complete st player hm (by omega)⟩

/-- Witness for the checkWin characterisation at a concrete input. -/
theorem checkWin_iff_connection_witness :
    ((checkWin wEmpty3 Player.FIRST).1 = true ↔ hasChainList wEmpty3 Player.FIRST) ∧
      3 ≤ wEmpty3.m_size :=
  ⟨checkWin_iff_connection wEmpty3 Player.FIRST (by decide) (by decide)
    (fun _ _ _ _ => rfl), by decide⟩

theorem wFull_m_size : wFull.m_size = 3 := by decide

theorem wFull_marksClear : marksClear wFull := by
  intro r c hr hc
  rw [wFull_m_size] at hr hc
  interval_cases r <;> interval_cases c <;> rfl

theorem wFull_checkWin_true : (checkWin wFull Player.SECOND).1 = true := by
  apply checkWin_complete wFull Player.SECOND wFull_marksClear (by decide)
  refine ⟨(0, 2), (2, 0), ?_, rfl, ?_, ?_⟩
  · exact ⟨by decide, by decide, by decide⟩
  · exact (by decide : (2 : ℕ) = wFull.m_size - 1)
  · have s1 : stepCell wFull.m_size (boardCtx wFull) (convertPlayer Player.SECOND)
        (0, 2) (1, 1) :=
      ⟨⟨by decide, by decide, by decide⟩, ⟨by decide, by decide, by decide⟩, by decide⟩
    have s2 : stepCell wFull.m_size (boardCtx wFull) (convertPlayer Player.SECOND)
        (1, 1) (2, 0) :=
      ⟨⟨by decide, by decide, by decide⟩, ⟨by decide, by decide, by decide⟩, by decide⟩
    exact Relation.ReflTransGen.head s1
      (Relation.ReflTransGen.head s2 Relation.ReflTransGen.refl)

/-- C4 counterexample: on the concrete board wAlmost with candidate
(2,2), testPlay runs playLimit(3) = 150 playouts, all 150 are wins for
SECOND, yet the returned probability value is 150/151, not the claimed
wins / playouts_run = 150/150. -/
theorem testPlay_value_counterexample :
    testPlay 0 wAlmost 2 2 (fun _ => 0) 0 = some (wFullProb, wFull, 0)
    ∧ testPlayLoop (playLimit wAlmost.m_size) (addPlay wAlmost Player.SECOND 2 2).2
        (fun _ => 0) 0 0 = some (playLimit wAlmost.m_size, 0)
    ∧ wFullProb.m_value ≠
        (playLimit wAlmost.m_size : ℚ) / (playLimit wAlmost.m_size : ℚ) := by
  refine ⟨testPlay_wAlmost_eq, ?_, ?_⟩
  · rw [testPlayLoop_full (playLimit wAlmost.m_size) (addPlay wAlmost Player.SECOND 2 2).2
      (fun _ => 0) 0 0 (by decide)]
    rw [show (checkWin (addPlay wAlmost Player.SECOND 2 2).2 Player.SECOND).1 = true from
      wFull_checkWin_true]
    simp
  · show (Nat.cast (if (checkWin wFull Player.SECOND).1 then playLimit wFull.m_size else 0) : ℚ) /
        ((playLimit wFull.m_size : ℚ) + 1) ≠ _
    rw [wFull_checkWin_true, wFull_m_size]
    rw [show wAlmost.m_size = 3 from by decide]
    norm_num [playLimit]

/-! ### The no-draw theorem (C2): the game of Y and the majority reduction -/

/-- Nat-level characterisation of hex adjacency. -/
theorem adjacent_iff (r c r2 c2 : ℕ) :
    adjacent r c r2 c2 ↔
      ((r2 + 1 = r ∧ c2 = c) ∨ (r2 = r + 1 ∧ c2 = c) ∨ (r2 = r ∧ c2 + 1 = c) ∨
       (r2 = r ∧ c2 = c + 1) ∨ (r2 + 1 = r ∧ c2 = c + 1) ∨ (r2 = r + 1 ∧ c2 + 1 = c)) := by
  simp only [adjacent, sixOffsets, List.mem_cons, Prod.mk.injEq, List.not_mem_nil, or_false]
  omega

/-- Reflexive-transitive closure of a symmetric relation is symmetric. -/
theorem rtg_symm {α : Type} {r : α → α → Prop} (hsymm : ∀ a b, r a b → r b a) :
    ∀ {a b : α}, Relation.ReflTransGen r a b → Relation.ReflTransGen r b a := by
  intro a b h
  induction h with
  | refl => exact Relation.ReflTransGen.refl
  | tail _ hstep ih => exact Relation.ReflTransGen.head (hsymm _ _ hstep) ih

theorem rtg_congr {α : Type} {r s : α → α → Prop} (h : ∀ a b, r a b ↔ s a b) {a b : α} :
    Relation.ReflTransGen r a b ↔ Relation.ReflTransGen s a b :=
  ⟨Relation.ReflTransGen.mono (fun x y hxy => (h x y).mp hxy),
   Relation.ReflTransGen.mono (fun x y hxy => (h x y).mpr hxy)⟩

/-- A valid, c-coloured cell of the triangular Y board of side n: the
cells are the (i, j) with i + j < n, the three sides are i = 0, j = 0
and i + j = n - 1. -/
def yOK (n : ℕ) (B : ℕ → ℕ → Bool) (c : Bool) (p : ℕ × ℕ) : Prop :=
  p.1 + p.2 < n ∧ B p.1 p.2 = c

/-- One step between same-coloured adjacent Y cells. -/
def yStep (n : ℕ) (B : ℕ → ℕ → Bool) (c : Bool) (a b : ℕ × ℕ) : Prop :=
  yOK n B c a ∧ yOK n B c b ∧ adjacent a.1 a.2 b.1 b.2

theorem yStep_symm (n : ℕ) (B : ℕ → ℕ → Bool) (c : Bool) (a b : ℕ × ℕ)
    (h : yStep n B c a b) : yStep n B c b a :=
  ⟨h.2.1, h.1, adjacent_symm h.2.2⟩

/-- Colour c wins the Y board of side n: one connected c-coloured set
touches all three sides. -/
def yWins (n : ℕ) (B : ℕ → ℕ → Bool) (c : Bool) : Prop :=
  ∃ x y z : ℕ × ℕ, yOK n B c x ∧ yOK n B c y ∧ yOK n B c z ∧
    x.1 = 0 ∧ y.2 = 0 ∧ z.1 + z.2 = n - 1 ∧
    Relation.ReflTransGen (yStep n B c) x y ∧ Relation.ReflTransGen (yStep n B c) x z

/-- Majority of three booleans. -/
def maj (a b d : Bool) : Bool :=
  (a && b) || (a && d) || (b && d)

/-- The Schensted majority reduction: cell (i, j) of the reduced board
takes the majority colour of the upward triangle
{(i, j), (i+1, j), (i, j+1)}. -/
def yReduce (B : ℕ → ℕ → Bool) : ℕ → ℕ → Bool :=
  fun i j => maj (B i j) (B (i + 1) j) (B i (j + 1))

theorem maj_of_two (a b d c : Bool)
    (h : (a = c ∧ b = c) ∨ (a = c ∧ d = c) ∨ (b = c ∧ d = c)) : maj a b d = c := by
  revert h
  cases a <;> cases b <;> cases d <;> cases c <;> decide

theorem maj_first_or_third (a b d c : Bool) (h : maj a b d = c) : a = c ∨ d = c := by
  revert h
  cases a <;> cases b <;> cases d <;> cases c <;> decide

theorem maj_first_or_second (a b d c : Bool) (h : maj a b d = c) : a = c ∨ b = c := by
  revert h
  cases a <;> cases b <;> cases d <;> cases c <;> decide

theorem maj_second_or_third (a b d c : Bool) (h : maj a b d = c) : b = c ∨ d = c := by
  revert h
  cases a <;> cases b <;> cases d <;> cases c <;> decide

theorem maj_rest_of_not_first (a b d c : Bool) (h : maj a b d = c) (ha : ¬a = c) :
    b = c ∧ d = c := by
  revert h ha
  cases a <;> cases b <;> cases d <;> cases c <;> decide

theorem maj_rest_of_not_second (a b d c : Bool) (h : maj a b d = c) (hb : ¬b = c) :
    a = c ∧ d = c := by
  revert h hb
  cases a <;> cases b <;> cases d <;> cases c <;> decide

theorem maj_rest_of_not_third (a b d c : Bool) (h : maj a b d = c) (hd : ¬d = c) :
    a = c ∧ b = c := by
  revert h hd
  cases a <;> cases b <;> cases d <;> cases c <;> decide

/-- The image of an edge of the Y board under the majority reduction:
the unique upward triangle containing both endpoints is based at the
componentwise minimum. -/
def ximg (u v : ℕ × ℕ) : ℕ × ℕ :=
  (min u.1 v.1, min u.2 v.2)

theorem ximg_comm (u v : ℕ × ℕ) : ximg u v = ximg v u := by
  simp [ximg, Nat.min_comm]

/-- Both endpoints of an edge lie in the upward triangle based at the
edge image, and the image is a valid cell of the reduced board. -/
theorem ximg_spec {n : ℕ} {u v : ℕ × ℕ} (hu : u.1 + u.2 < n) (hv : v.1 + v.2 < n)
    (hadj : adjacent u.1 u.2 v.1 v.2) :
    (ximg u v).1 + (ximg u v).2 < n - 1 ∧
    ((u.1 = (ximg u v).1 ∧ u.2 = (ximg u v).2) ∨
     (u.1 = (ximg u v).1 + 1 ∧ u.2 = (ximg u v).2) ∨
     (u.1 = (ximg u v).1 ∧ u.2 = (ximg u v).2 + 1)) ∧
    ((v.1 = (ximg u v).1 ∧ v.2 = (ximg u v).2) ∨
     (v.1 = (ximg u v).1 + 1 ∧ v.2 = (ximg u v).2) ∨
     (v.1 = (ximg u v).1 ∧ v.2 = (ximg u v).2 + 1)) := by
  rw [adjacent_iff] at hadj
  unfold ximg
  omega

set_option maxHeartbeats 2000000 in
/-- Images of consecutive edges of a path are equal or adjacent. -/
theorem ximg_adj {u v w : ℕ × ℕ} (h1 : adjacent u.1 u.2 v.1 v.2)
    (h2 : adjacent v.1 v.2 w.1 w.2) :
    ximg u v = ximg v w ∨ adjacent (ximg u v).1 (ximg u v).2 (ximg v w).1 (ximg v w).2 := by
  rw [adjacent_iff] at h1 h2
  unfold ximg
  simp only [adjacent_iff, Prod.mk.injEq]
  rcases h1 with ⟨ha, hb⟩ | ⟨ha, hb⟩ | ⟨ha, hb⟩ | ⟨ha, hb⟩ | ⟨ha, hb⟩ | ⟨ha, hb⟩ <;>
    rcases h2 with ⟨hc, hd⟩ | ⟨hc, hd⟩ | ⟨hc, hd⟩ | ⟨hc, hd⟩ | ⟨hc, hd⟩ | ⟨hc, hd⟩ <;>
    omega

set_option maxHeartbeats 2000000 in
/-- Images of two edges leaving the same cell are equal or adjacent. -/
theorem ximg_adj_samehead {u v w : ℕ × ℕ} (h1 : adjacent u.1 u.2 v.1 v.2)
    (h2 : adjacent u.1 u.2 w.1 w.2) :
    ximg u v = ximg u w ∨ adjacent (ximg u v).1 (ximg u v).2 (ximg u w).1 (ximg u w).2 := by
  rw [adjacent_iff] at h1 h2
  unfold ximg
  simp only [adjacent_iff, Prod.mk.injEq]
  rcases h1 with ⟨ha, hb⟩ | ⟨ha, hb⟩ | ⟨ha, hb⟩ | ⟨ha, hb⟩ | ⟨ha, hb⟩ | ⟨ha, hb⟩ <;>
    rcases h2 with ⟨hc, hd⟩ | ⟨hc, hd⟩ | ⟨hc, hd⟩ | ⟨hc, hd⟩ | ⟨hc, hd⟩ | ⟨hc, hd⟩ <;>
    omega

/-- The image of a same-coloured edge is a cell of that colour on the
reduced board. -/
theorem yReduce_ximg {B : ℕ → ℕ → Bool} {c : Bool} {u v : ℕ × ℕ}
    (hu : B u.1 u.2 = c) (hv : B v.1 v.2 = c) (hadj : adjacent u.1 u.2 v.1 v.2) :
    yReduce B (ximg u v).1 (ximg u v).2 = c := by
  have hne : ¬(u.1 = v.1 ∧ u.2 = v.2) := by
    rw [adjacent_iff] at hadj
    omega
  have hmem : ((u.1 = (ximg u v).1 ∧ u.2 = (ximg u v).2) ∨
      (u.1 = (ximg u v).1 + 1 ∧ u.2 = (ximg u v).2) ∨
      (u.1 = (ximg u v).1 ∧ u.2 = (ximg u v).2 + 1)) ∧
      ((v.1 = (ximg u v).1 ∧ v.2 = (ximg u v).2) ∨
      (v.1 = (ximg u v).1 + 1 ∧ v.2 = (ximg u v).2) ∨
      (v.1 = (ximg u v).1 ∧ v.2 = (ximg u v).2 + 1)) := by
    rw [adjacent_iff] at hadj
    unfold ximg
    omega
  unfold yReduce
  apply maj_of_two
  rcases hmem.1 with ⟨hu1, hu2⟩ | ⟨hu1, hu2⟩ | ⟨hu1, hu2⟩ <;>
    rcases hmem.2 with ⟨hv1, hv2⟩ | ⟨hv1, hv2⟩ | ⟨hv1, hv2⟩
  · exact absurd ⟨by omega, by omega⟩ hne
  · exact Or.inl ⟨by rw [← hu1, ← hu2]; exact hu, by rw [← hv1, ← hv2]; exact hv⟩
  · exact Or.inr (Or.inl ⟨by rw [← hu1, ← hu2]; exact hu, by rw [← hv1, ← hv2]; exact hv⟩)
  · exact Or.inl ⟨by rw [← hv1, ← hv2]; exact hv, by rw [← hu1, ← hu2]; exact hu⟩
  · exact absurd ⟨by omega, by omega⟩ hne
  · exact Or.inr (Or.inr ⟨by rw [← hu1, ← hu2]; exact hu, by rw [← hv1, ← hv2]; exact hv⟩)
  · exact Or.inr (Or.inl ⟨by rw [← hv1, ← hv2]; exact hv, by rw [← hu1, ← hu2]; exact hu⟩)
  · exact Or.inr (Or.inr ⟨by rw [← hv1, ← hv2]; exact hv, by rw [← hu1, ← hu2]; exact hu⟩)
  · exact absurd ⟨by omega, by omega⟩ hne

/-- Y on a board of side 1 is decided by its only cell. -/
theorem yWins_one (B : ℕ → ℕ → Bool) (c : Bool) : yWins 1 B c ↔ B 0 0 = c := by
  constructor
  · rintro ⟨x, _, _, hokx, _, _, _, _, _, _, _⟩
    have hx : x = (0, 0) := by
      obtain ⟨x1, x2⟩ := x
      have := hokx.1
      simp only [Prod.mk.injEq]
      omega
    rw [hx] at hokx
    exact hokx.2
  · intro h
    exact ⟨(0, 0), (0, 0), (0, 0), ⟨by omega, h⟩, ⟨by omega, h⟩, ⟨by omega, h⟩,
      rfl, rfl, rfl, Relation.ReflTransGen.refl, Relation.ReflTransGen.refl⟩

theorem ximg_fst (u v : ℕ × ℕ) : (ximg u v).1 = min u.1 v.1 := rfl

theorem ximg_snd (u v : ℕ × ℕ) : (ximg u v).2 = min u.2 v.2 := rfl

/-- The image of an edge whose far endpoint lies on the diagonal side of
Y(n+1) lies on the diagonal side of Y(n). -/
theorem ximg_diag {n : ℕ} {u v : ℕ × ℕ} (hu : u.1 + u.2 < n + 1) (hv : v.1 + v.2 = n)
    (hadj : adjacent u.1 u.2 v.1 v.2) : (ximg u v).1 + (ximg u v).2 = n - 1 := by
  rw [adjacent_iff] at hadj
  rw [ximg_fst, ximg_snd]
  omega

/-- The image of an edge of Y(n+1) is a valid same-coloured cell of the
reduced board Y(n). -/
theorem yStep_ximg_ok {n : ℕ} {B : ℕ → ℕ → Bool} {c : Bool} {u v : ℕ × ℕ}
    (h : yStep (n + 1) B c u v) : yOK n (yReduce B) c (ximg u v) := by
  refine ⟨?_, yReduce_ximg h.1.2 h.2.1.2 h.2.2⟩
  have hspec := ximg_spec h.1.1 h.2.1.1 h.2.2
  omega

/-- Images of consecutive edges of a path in Y(n+1) are joined in the
reduced board. -/
theorem yStep_ximg_bridge {n : ℕ} {B : ℕ → ℕ → Bool} {c : Bool} {u v w : ℕ × ℕ}
    (h1 : yStep (n + 1) B c u v) (h2 : yStep (n + 1) B c v w) :
    Relation.ReflTransGen (yStep n (yReduce B) c) (ximg u v) (ximg v w) := by
  rcases ximg_adj h1.2.2 h2.2.2 with heq | hadj
  · rw [heq]
  · exact Relation.ReflTransGen.single ⟨yStep_ximg_ok h1, yStep_ximg_ok h2, hadj⟩

/-- Images of two edges leaving the same cell of Y(n+1) are joined in the
reduced board. -/
theorem yStep_ximg_bridge_samehead {n : ℕ} {B : ℕ → ℕ → Bool} {c : Bool} {u v w : ℕ × ℕ}
    (h1 : yStep (n + 1) B c u v) (h2 : yStep (n + 1) B c u w) :
    Relation.ReflTransGen (yStep n (yReduce B) c) (ximg u v) (ximg u w) := by
  rcases ximg_adj_samehead h1.2.2 h2.2.2 with heq | hadj
  · rw [heq]
  · exact Relation.ReflTransGen.single ⟨yStep_ximg_ok h1, yStep_ximg_ok h2, hadj⟩

/-- A non-trivial path in Y(n+1) projects to a path in the reduced board
between the images of its first and last edges. -/
theorem rtg_ximg {n : ℕ} {B : ℕ → ℕ → Bool} {c : Bool} {u w : ℕ × ℕ}
    (h : Relation.ReflTransGen (yStep (n + 1) B c) u w) :
    u = w ∨ ∃ a b : ℕ × ℕ, yStep (n + 1) B c u a ∧ yStep (n + 1) B c b w ∧
      Relation.ReflTransGen (yStep n (yReduce B) c) (ximg u a) (ximg b w) := by
  induction h with
  | refl => exact Or.inl rfl
  | tail _ hstep ih =>
    right
    rcases ih with heq | ⟨a, b, hua, hbm, him⟩
    · subst heq
      exact ⟨_, u, hstep, hstep, Relation.ReflTransGen.refl⟩
    · exact ⟨a, _, hua, hstep, Relation.ReflTransGen.trans him (yStep_ximg_bridge hbm hstep)⟩

/-- Projection: a winner of Y(n+1) also wins the majority-reduced board
Y(n). -/
theorem yWins_reduce {n : ℕ} (hn : 1 ≤ n) {B : ℕ → ℕ → Bool} {c : Bool}
    (h : yWins (n + 1) B c) : yWins n (yReduce B) c := by
  obtain ⟨x, y, z, hokx, hoky, hokz, hxi, hyj, hzd, hxy, hxz⟩ := h
  have hzsum : z.1 + z.2 = n := by omega
  rcases rtg_ximg hxy with hxyeq | ⟨a1, b1, hxa1, hb1y, him1⟩
  · rcases rtg_ximg hxz with hxzeq | ⟨a2, b2, hxa2, hb2z, him2⟩
    · exfalso
      rw [← hxyeq] at hyj
      rw [← hxzeq] at hzsum
      omega
    · have hx2 : x.2 = 0 := by rw [← hxyeq] at hyj; exact hyj
      refine ⟨ximg x a2, ximg x a2, ximg b2 z, yStep_ximg_ok hxa2, yStep_ximg_ok hxa2,
        yStep_ximg_ok hb2z, ?_, ?_, ximg_diag hb2z.1.1 hzsum hb2z.2.2,
        Relation.ReflTransGen.refl, him2⟩
      · rw [ximg_fst]; omega
      · rw [ximg_snd]; omega
  · rcases rtg_ximg hxz with hxzeq | ⟨a2, b2, hxa2, hb2z, him2⟩
    · have hxsum : x.1 + x.2 = n := by rw [← hxzeq] at hzsum; exact hzsum
      refine ⟨ximg x a1, ximg b1 y, ximg x a1, yStep_ximg_ok hxa1, yStep_ximg_ok hb1y,
        yStep_ximg_ok hxa1, ?_, ?_, ?_, him1, Relation.ReflTransGen.refl⟩
      · rw [ximg_fst]; omega
      · rw [ximg_snd]; omega
      · rw [ximg_comm]
        exact ximg_diag hxa1.2.1.1 hxsum (adjacent_symm hxa1.2.2)
    · refine ⟨ximg x a1, ximg b1 y, ximg b2 z, yStep_ximg_ok hxa1, yStep_ximg_ok hb1y,
        yStep_ximg_ok hb2z, ?_, ?_, ximg_diag hb2z.1.1 hzsum hb2z.2.2, him1,
        Relation.ReflTransGen.trans (yStep_ximg_bridge_samehead hxa1 hxa2) him2⟩
      · rw [ximg_fst]; omega
      · rw [ximg_snd]; omega

/-- Membership in the upward triangle based at x. -/
def inTri (x p : ℕ × ℕ) : Prop :=
  (p.1 = x.1 ∧ p.2 = x.2) ∨ (p.1 = x.1 + 1 ∧ p.2 = x.2) ∨ (p.1 = x.1 ∧ p.2 = x.2 + 1)

/-- A c-coloured cell of the upward triangle based at x. -/
def cTri (B : ℕ → ℕ → Bool) (c : Bool) (x p : ℕ × ℕ) : Prop :=
  inTri x p ∧ B p.1 p.2 = c

theorem inTri_valid {n : ℕ} {x p : ℕ × ℕ} (hx : x.1 + x.2 < n) (hp : inTri x p) :
    p.1 + p.2 < n + 1 := by
  unfold inTri at hp
  omega

/-- Any two cells of one upward triangle are equal or adjacent. -/
theorem inTri_adj {x p q : ℕ × ℕ} (hp : inTri x p) (hq : inTri x q) :
    p = q ∨ adjacent p.1 p.2 q.1 q.2 := by
  unfold inTri at hp hq
  simp only [Prod.ext_iff, adjacent_iff]
  omega

/-- Any two c-cells of the triangle over a valid cell of Y(n) are joined
in Y(n+1). -/
theorem cTri_reach {n : ℕ} {B : ℕ → ℕ → Bool} {c : Bool} {x p q : ℕ × ℕ}
    (hx : x.1 + x.2 < n) (hp : cTri B c x p) (hq : cTri B c x q) :
    Relation.ReflTransGen (yStep (n + 1) B c) p q := by
  rcases inTri_adj hp.1 hq.1 with heq | hadj
  · rw [heq]
  · exact Relation.ReflTransGen.single
      ⟨⟨inTri_valid hx hp.1, hp.2⟩, ⟨inTri_valid hx hq.1, hq.2⟩, hadj⟩

/-- Triangles over adjacent cells of the reduced board, both of colour c,
contain c-cells that are equal or adjacent: the six bridging cases of the
majority-reduction argument. -/
theorem cTri_bridge {B : ℕ → ℕ → Bool} {c : Bool} (x1 x2 y1 y2 : ℕ)
    (hadj : adjacent x1 x2 y1 y2) (hx : yReduce B x1 x2 = c) (hy : yReduce B y1 y2 = c) :
    ∃ u v : ℕ × ℕ, cTri B c (x1, x2) u ∧ cTri B c (y1, y2) v ∧
      (u = v ∨ adjacent u.1 u.2 v.1 v.2) := by
  unfold yReduce at hx hy
  rw [adjacent_iff] at hadj
  rcases hadj with ⟨ha, hb⟩ | ⟨ha, hb⟩ | ⟨ha, hb⟩ | ⟨ha, hb⟩ | ⟨ha, hb⟩ | ⟨ha, hb⟩
  · subst ha; subst hb
    by_cases hs : B (y1 + 1) y2 = c
    · exact ⟨(y1 + 1, y2), (y1 + 1, y2), ⟨Or.inl ⟨rfl, rfl⟩, hs⟩,
        ⟨Or.inr (Or.inl ⟨rfl, rfl⟩), hs⟩, Or.inl rfl⟩
    · have hxr := maj_rest_of_not_first _ _ _ _ hx hs
      have hyr := maj_rest_of_not_second _ _ _ _ hy hs
      exact ⟨(y1 + 1, y2 + 1), (y1, y2 + 1), ⟨Or.inr (Or.inr ⟨rfl, rfl⟩), hxr.2⟩,
        ⟨Or.inr (Or.inr ⟨rfl, rfl⟩), hyr.2⟩,
        Or.inr ((adjacent_iff (y1 + 1) (y2 + 1) y1 (y2 + 1)).mpr (by omega))⟩
  · subst ha; subst hb
    by_cases hs : B (x1 + 1) y2 = c
    · exact ⟨(x1 + 1, y2), (x1 + 1, y2), ⟨Or.inr (Or.inl ⟨rfl, rfl⟩), hs⟩,
        ⟨Or.inl ⟨rfl, rfl⟩, hs⟩, Or.inl rfl⟩
    · have hxr := maj_rest_of_not_second _ _ _ _ hx hs
      have hyr := maj_rest_of_not_first _ _ _ _ hy hs
      exact ⟨(x1, y2 + 1), (x1 + 1, y2 + 1), ⟨Or.inr (Or.inr ⟨rfl, rfl⟩), hxr.2⟩,
        ⟨Or.inr (Or.inr ⟨rfl, rfl⟩), hyr.2⟩,
        Or.inr ((adjacent_iff x1 (y2 + 1) (x1 + 1) (y2 + 1)).mpr (by omega))⟩
  · subst ha; subst hb
    by_cases hs : B y1 (y2 + 1) = c
    · exact ⟨(y1, y2 + 1), (y1, y2 + 1), ⟨Or.inl ⟨rfl, rfl⟩, hs⟩,
        ⟨Or.inr (Or.inr ⟨rfl, rfl⟩), hs⟩, Or.inl rfl⟩
    · have hxr := maj_rest_of_not_first _ _ _ _ hx hs
      have hyr := maj_rest_of_not_third _ _ _ _ hy hs
      exact ⟨(y1 + 1, y2 + 1), (y1 + 1, y2), ⟨Or.inr (Or.inl ⟨rfl, rfl⟩), hxr.1⟩,
        ⟨Or.inr (Or.inl ⟨rfl, rfl⟩), hyr.2⟩,
        Or.inr ((adjacent_iff (y1 + 1) (y2 + 1) (y1 + 1) y2).mpr (by omega))⟩
  · subst ha; subst hb
    by_cases hs : B y1 (x2 + 1) = c
    · exact ⟨(y1, x2 + 1), (y1, x2 + 1), ⟨Or.inr (Or.inr ⟨rfl, rfl⟩), hs⟩,
        ⟨Or.inl ⟨rfl, rfl⟩, hs⟩, Or.inl rfl⟩
    · have hxr := maj_rest_of_not_third _ _ _ _ hx hs
      have hyr := maj_rest_of_not_first _ _ _ _ hy hs
      exact ⟨(y1 + 1, x2), (y1 + 1, x2 + 1), ⟨Or.inr (Or.inl ⟨rfl, rfl⟩), hxr.2⟩,
        ⟨Or.inr (Or.inl ⟨rfl, rfl⟩), hyr.1⟩,
        Or.inr ((adjacent_iff (y1 + 1) x2 (y1 + 1) (x2 + 1)).mpr (by omega))⟩
  · subst ha; subst hb
    by_cases hs : B (y1 + 1) (x2 + 1) = c
    · exact ⟨(y1 + 1, x2 + 1), (y1 + 1, x2 + 1), ⟨Or.inr (Or.inr ⟨rfl, rfl⟩), hs⟩,
        ⟨Or.inr (Or.inl ⟨rfl, rfl⟩), hs⟩, Or.inl rfl⟩
    · have hxr := maj_rest_of_not_third _ _ _ _ hx hs
      have hyr := maj_rest_of_not_second _ _ _ _ hy hs
      exact ⟨(y1 + 1, x2), (y1, x2 + 1), ⟨Or.inl ⟨rfl, rfl⟩, hxr.1⟩,
        ⟨Or.inl ⟨rfl, rfl⟩, hyr.1⟩,
        Or.inr ((adjacent_iff (y1 + 1) x2 y1 (x2 + 1)).mpr (by omega))⟩
  · subst ha; subst hb
    by_cases hs : B (x1 + 1) (y2 + 1) = c
    · exact ⟨(x1 + 1, y2 + 1), (x1 + 1, y2 + 1), ⟨Or.inr (Or.inl ⟨rfl, rfl⟩), hs⟩,
        ⟨Or.inr (Or.inr ⟨rfl, rfl⟩), hs⟩, Or.inl rfl⟩
    · have hxr := maj_rest_of_not_second _ _ _ _ hx hs
      have hyr := maj_rest_of_not_third _ _ _ _ hy hs
      exact ⟨(x1, y2 + 1), (x1 + 1, y2), ⟨Or.inl ⟨rfl, rfl⟩, hxr.1⟩,
        ⟨Or.inl ⟨rfl, rfl⟩, hyr.1⟩,
        Or.inr ((adjacent_iff x1 (y2 + 1) (x1 + 1) y2).mpr (by omega))⟩

/-- A path in the reduced board lifts: any c-cell of the triangle over its
start reaches any c-cell of the triangle over its end in Y(n+1). -/
theorem cTri_reach_of_rtg {n : ℕ} {B : ℕ → ℕ → Bool} {c : Bool} {x y : ℕ × ℕ}
    (hxv : x.1 + x.2 < n) (h : Relation.ReflTransGen (yStep n (yReduce B) c) x y) :
    ∀ u v : ℕ × ℕ, cTri B c x u → cTri B c y v →
      Relation.ReflTransGen (yStep (n + 1) B c) u v := by
  induction h with
  | refl => exact fun u v hu hv => cTri_reach hxv hu hv
  | tail _ hstep ih =>
    intro u v hu hv
    obtain ⟨p, q, hp, hq, hpq⟩ := cTri_bridge _ _ _ _ hstep.2.2 hstep.1.2 hstep.2.1.2
    have h1 := ih u p hu hp
    have h2 : Relation.ReflTransGen (yStep (n + 1) B c) p q := by
      rcases hpq with heq | hadj
      · rw [heq]
      · exact Relation.ReflTransGen.single
          ⟨⟨inTri_valid hstep.1.1 hp.1, hp.2⟩, ⟨inTri_valid hstep.2.1.1 hq.1, hq.2⟩, hadj⟩
    exact Relation.ReflTransGen.trans (Relation.ReflTransGen.trans h1 h2)
      (cTri_reach hstep.2.1.1 hq hv)

/-- The triangle over a c-cell of the i = 0 side of the reduced board
contains a c-cell on the i = 0 side. -/
theorem cTri_side_i {B : ℕ → ℕ → Bool} {c : Bool} {x : ℕ × ℕ} (hx1 : x.1 = 0)
    (hc : yReduce B x.1 x.2 = c) : ∃ u, cTri B c x u ∧ u.1 = 0 := by
  unfold yReduce at hc
  rcases maj_first_or_third _ _ _ _ hc with h | h
  · exact ⟨(x.1, x.2), ⟨Or.inl ⟨rfl, rfl⟩, h⟩, hx1⟩
  · exact ⟨(x.1, x.2 + 1), ⟨Or.inr (Or.inr ⟨rfl, rfl⟩), h⟩, hx1⟩

/-- The triangle over a c-cell of the j = 0 side of the reduced board
contains a c-cell on the j = 0 side. -/
theorem cTri_side_j {B : ℕ → ℕ → Bool} {c : Bool} {x : ℕ × ℕ} (hx2 : x.2 = 0)
    (hc : yReduce B x.1 x.2 = c) : ∃ u, cTri B c x u ∧ u.2 = 0 := by
  unfold yReduce at hc
  rcases maj_first_or_second _ _ _ _ hc with h | h
  · exact ⟨(x.1, x.2), ⟨Or.inl ⟨rfl, rfl⟩, h⟩, hx2⟩
  · exact ⟨(x.1 + 1, x.2), ⟨Or.inr (Or.inl ⟨rfl, rfl⟩), h⟩, hx2⟩

/-- The triangle over a c-cell of the diagonal side of the reduced board
Y(n) contains a c-cell on the diagonal side of Y(n+1). -/
theorem cTri_side_d {n : ℕ} (hn : 1 ≤ n) {B : ℕ → ℕ → Bool} {c : Bool} {x : ℕ × ℕ}
    (hxd : x.1 + x.2 = n - 1) (hc : yReduce B x.1 x.2 = c) :
    ∃ u, cTri B c x u ∧ u.1 + u.2 = n := by
  unfold yReduce at hc
  rcases maj_second_or_third _ _ _ _ hc with h | h
  · exact ⟨(x.1 + 1, x.2), ⟨Or.inr (Or.inl ⟨rfl, rfl⟩), h⟩, by omega⟩
  · exact ⟨(x.1, x.2 + 1), ⟨Or.inr (Or.inr ⟨rfl, rfl⟩), h⟩, by omega⟩

/-- Lifting: a winner of the majority-reduced board Y(n) also wins
Y(n+1). -/
theorem yWins_lift {n : ℕ} (hn : 1 ≤ n) {B : ℕ → ℕ → Bool} {c : Bool}
    (h : yWins n (yReduce B) c) : yWins (n + 1) B c := by
  obtain ⟨x, y, z, hokx, hoky, hokz, hxi, hyj, hzd, hxy, hxz⟩ := h
  obtain ⟨X, hXt, hX1⟩ := cTri_side_i hxi hokx.2
  obtain ⟨Y, hYt, hY2⟩ := cTri_side_j hyj hoky.2
  obtain ⟨Z, hZt, hZd⟩ := cTri_side_d hn hzd hokz.2
  exact ⟨X, Y, Z, ⟨inTri_valid hokx.1 hXt.1, hXt.2⟩, ⟨inTri_valid hoky.1 hYt.1, hYt.2⟩,
    ⟨inTri_valid hokz.1 hZt.1, hZt.2⟩, hX1, hY2, by omega,
    cTri_reach_of_rtg hokx.1 hxy X Y hXt hYt,
    cTri_reach_of_rtg hokx.1 hxz X Z hXt hZt⟩

/-- Exactly one colour wins the Y board, for every colouring. -/
theorem yExactlyOne : ∀ n : ℕ, 1 ≤ n → ∀ B : ℕ → ℕ → Bool,
    (yWins n B true ∨ yWins n B false) ∧ ¬(yWins n B true ∧ yWins n B false) := by
  intro n
  induction n with
  | zero => omega
  | succ m ih =>
    intro _ B
    by_cases hm : 1 ≤ m
    · obtain ⟨hor, hand⟩ := ih hm (yReduce B)
      constructor
      · rcases hor with h | h
        · exact Or.inl (yWins_lift hm h)
        · exact Or.inr (yWins_lift hm h)
      · rintro ⟨ht, hf⟩
        exact hand ⟨yWins_reduce hm ht, yWins_reduce hm hf⟩
    · have hm0 : m = 0 := by omega
      subst hm0
      constructor
      · rcases Bool.eq_false_or_eq_true (B 0 0) with h | h
        · exact Or.inl ((yWins_one B true).mpr h)
        · exact Or.inr ((yWins_one B false).mpr h)
      · rintro ⟨ht, hf⟩
        have h1 := (yWins_one B true).mp ht
        have h2 := (yWins_one B false).mp hf
        rw [h1] at h2
        exact Bool.noConfusion h2

/-! ### Embedding the hex board into a Y board -/

/-- The hex board of size N embedded into the Y board of side 2N - 1:
the region i >= N is a solid RED (true) cap joining RED's far border to
two sides of the triangle, the region j >= N (with i < N) is a solid
GREEN (false) cap, and the rhombus i < N, j < N carries the hex colours,
RED as true. -/
def hexEmbed (N : ℕ) (C : ℕ → ℕ → NodeColour) : ℕ → ℕ → Bool :=
  fun i j =>
    if N ≤ i then true
    else if N ≤ j then false
    else if C i j = NodeColour.RED then true else false

theorem hexEmbed_tr {N : ℕ} {C : ℕ → ℕ → NodeColour} {i j : ℕ} (h : N ≤ i) :
    hexEmbed N C i j = true := by
  unfold hexEmbed
  rw [if_pos h]

theorem hexEmbed_tg {N : ℕ} {C : ℕ → ℕ → NodeColour} {i j : ℕ} (h1 : i < N) (h2 : N ≤ j) :
    hexEmbed N C i j = false := by
  unfold hexEmbed
  rw [if_neg (by omega), if_pos h2]

theorem hexEmbed_red {N : ℕ} {C : ℕ → ℕ → NodeColour} {i j : ℕ} (h1 : i < N) (h2 : j < N)
    (h : C i j = NodeColour.RED) : hexEmbed N C i j = true := by
  unfold hexEmbed
  rw [if_neg (by omega), if_neg (by omega), if_pos h]

theorem hexEmbed_green {N : ℕ} {C : ℕ → ℕ → NodeColour} {i j : ℕ} (h1 : i < N) (h2 : j < N)
    (h : C i j = NodeColour.GREEN) : hexEmbed N C i j = false := by
  unfold hexEmbed
  rw [if_neg (by omega), if_neg (by omega), if_neg (by simp [h])]

theorem hexEmbed_true_elim {N : ℕ} {C : ℕ → ℕ → NodeColour} {i j : ℕ}
    (h : hexEmbed N C i j = true) (h1 : i < N) (h2 : j < N) : C i j = NodeColour.RED := by
  unfold hexEmbed at h
  rw [if_neg (by omega), if_neg (by omega)] at h
  by_cases hc : C i j = NodeColour.RED
  · exact hc
  · rw [if_neg hc] at h
    exact Bool.noConfusion h

theorem hexEmbed_true_not_tg {N : ℕ} {C : ℕ → ℕ → NodeColour} {i j : ℕ}
    (h : hexEmbed N C i j = true) (h1 : i < N) : j < N := by
  by_contra hcon
  rw [hexEmbed_tg h1 (by omega)] at h
  exact Bool.noConfusion h

theorem hexEmbed_false_lt {N : ℕ} {C : ℕ → ℕ → NodeColour} {i j : ℕ}
    (h : hexEmbed N C i j = false) : i < N := by
  by_contra hcon
  rw [hexEmbed_tr (by omega)] at h
  exact Bool.noConfusion h

theorem hexEmbed_false_elim {N : ℕ} {C : ℕ → ℕ → NodeColour} {i j : ℕ}
    (h : hexEmbed N C i j = false) (h2 : j < N) (hW : C i j ≠ NodeColour.WHITE) :
    C i j = NodeColour.GREEN := by
  have h1 : i < N := hexEmbed_false_lt h
  unfold hexEmbed at h
  rw [if_neg (by omega), if_neg (by omega)] at h
  by_cases hc : C i j = NodeColour.RED
  · rw [if_pos hc] at h
    exact Bool.noConfusion h
  · cases hcc : C i j
    · exact absurd hcc hW
    · exact absurd hcc hc
    · rfl

/-- A RED step of the hex board is a true step of the embedded Y board. -/
theorem stepRed_to_yStep {N : ℕ} {C : ℕ → ℕ → NodeColour} {p q : ℕ × ℕ}
    (h : stepCell N C NodeColour.RED p q) : yStep (2 * N - 1) (hexEmbed N C) true p q := by
  obtain ⟨⟨hp1, hp2, hpc⟩, ⟨hq1, hq2, hqc⟩, hadj⟩ := h
  exact ⟨⟨by omega, hexEmbed_red hp1 hp2 hpc⟩, ⟨by omega, hexEmbed_red hq1 hq2 hqc⟩, hadj⟩

/-- The end cell of a chain is a valid coloured cell. -/
theorem rtg_stepCell_ok {N : ℕ} {C : ℕ → ℕ → NodeColour} {colour : NodeColour} {a b : ℕ × ℕ}
    (hok : okCell N C colour a) (h : Relation.ReflTransGen (stepCell N C colour) a b) :
    okCell N C colour b := by
  induction h with
  | refl => exact hok
  | tail _ hstep _ => exact hstep.2.1

/-- Walk along row N of the red cap towards column 0. -/
theorem trWalkLeft (N : ℕ) (C : ℕ → ℕ → NodeColour) (hN : 2 ≤ N) :
    ∀ j : ℕ, N + j ≤ 2 * N - 2 →
    Relation.ReflTransGen (yStep (2 * N - 1) (hexEmbed N C) true) (N, j) (N, 0) := by
  intro j
  induction j with
  | zero => intro _; exact Relation.ReflTransGen.refl
  | succ k ih =>
    intro hj
    refine Relation.ReflTransGen.head ?_ (ih (by omega))
    refine ⟨⟨by show N + (k + 1) < 2 * N - 1; omega, hexEmbed_tr (le_refl N)⟩,
      ⟨by show N + k < 2 * N - 1; omega, hexEmbed_tr (le_refl N)⟩, ?_⟩
    exact (adjacent_iff N (k + 1) N k).mpr (by omega)

/-- Walk down column 0 of the red cap towards the diagonal corner. -/
theorem trWalkDown (N : ℕ) (C : ℕ → ℕ → NodeColour) (hN : 2 ≤ N) :
    ∀ k : ℕ, N + k ≤ 2 * N - 2 →
    Relation.ReflTransGen (yStep (2 * N - 1) (hexEmbed N C) true) (N, 0) (N + k, 0) := by
  intro k
  induction k with
  | zero => intro _; exact Relation.ReflTransGen.refl
  | succ m ih =>
    intro hk
    refine Relation.ReflTransGen.tail (ih (by omega)) ?_
    refine ⟨⟨by show N + m + 0 < 2 * N - 1; omega, hexEmbed_tr (by omega)⟩,
      ⟨by show N + (m + 1) + 0 < 2 * N - 1; omega, hexEmbed_tr (by omega)⟩, ?_⟩
    exact (adjacent_iff (N + m) 0 (N + (m + 1)) 0).mpr (by omega)

/-- A red cell on the far border of the rhombus has a neighbor in the red
cap. -/
theorem trEntry (N : ℕ) (C : ℕ → ℕ → NodeColour) (hN : 2 ≤ N) {b : ℕ × ℕ}
    (hb1 : b.1 = N - 1) (hb2 : b.2 < N) (hbc : C b.1 b.2 = NodeColour.RED) :
    yStep (2 * N - 1) (hexEmbed N C) true b (N, min b.2 (N - 2)) := by
  refine ⟨⟨by omega, hexEmbed_red (by omega) hb2 hbc⟩,
    ⟨by show N + min b.2 (N - 2) < 2 * N - 1; omega, hexEmbed_tr (le_refl N)⟩, ?_⟩
  exact (adjacent_iff b.1 b.2 N (min b.2 (N - 2))).mpr (by omega)

/-- A RED chain across the hex board yields a true win of the embedded Y
board. -/
theorem winChain_SECOND_to_yWins {N : ℕ} (hN : 2 ≤ N) {C : ℕ → ℕ → NodeColour}
    (h : winChain N C Player.SECOND) : yWins (2 * N - 1) (hexEmbed N C) true := by
  obtain ⟨a, b, hoka, hstart, hend, hrtg⟩ := h
  have hoka' : okCell N C NodeColour.RED a := hoka
  have hrtg' : Relation.ReflTransGen (stepCell N C NodeColour.RED) a b := hrtg
  have hokb : okCell N C NodeColour.RED b := rtg_stepCell_ok hoka' hrtg'
  have hend' : b.1 = N - 1 := hend
  have hchain : Relation.ReflTransGen (yStep (2 * N - 1) (hexEmbed N C) true) a b :=
    Relation.ReflTransGen.mono (fun p q hpq => stepRed_to_yStep hpq) hrtg'
  have h1 : Relation.ReflTransGen (yStep (2 * N - 1) (hexEmbed N C) true) a
      (N, min b.2 (N - 2)) :=
    Relation.ReflTransGen.tail hchain (trEntry N C hN hend' hokb.2.1 hokb.2.2)
  have h2 : Relation.ReflTransGen (yStep (2 * N - 1) (hexEmbed N C) true) a (N, 0) :=
    Relation.ReflTransGen.trans h1 (trWalkLeft N C hN (min b.2 (N - 2)) (by omega))
  have h3 : Relation.ReflTransGen (yStep (2 * N - 1) (hexEmbed N C) true) a
      (N + (N - 2), 0) :=
    Relation.ReflTransGen.trans h2 (trWalkDown N C hN (N - 2) (by omega))
  have hstart' : a.1 = 0 := hstart
  obtain ⟨ha1, ha2, hac⟩ := hoka'
  refine ⟨a, (N, 0), (N + (N - 2), 0),
    ⟨by omega, hexEmbed_red ha1 ha2 hac⟩,
    ⟨by show N + 0 < 2 * N - 1; omega, hexEmbed_tr (le_refl N)⟩,
    ⟨by show N + (N - 2) + 0 < 2 * N - 1; omega, hexEmbed_tr (by omega)⟩,
    hstart', rfl, by show N + (N - 2) + 0 = 2 * N - 1 - 1; omega, h2, h3⟩

/-- A true path of the embedded board starting inside the rhombus either
stays in the rhombus or produces a RED hex chain reaching the far
border. -/
theorem y_to_hex_red {N : ℕ} (hN : 2 ≤ N) {C : ℕ → ℕ → NodeColour} {x w : ℕ × ℕ}
    (h : Relation.ReflTransGen (yStep (2 * N - 1) (hexEmbed N C) true) x w)
    (hx1 : x.1 < N) (hx2 : x.2 < N) :
    (w.1 < N ∧ w.2 < N ∧ Relation.ReflTransGen (stepCell N C NodeColour.RED) x w) ∨
    (∃ p : ℕ × ℕ, p.1 = N - 1 ∧ p.2 < N ∧
      Relation.ReflTransGen (stepCell N C NodeColour.RED) x p) := by
  induction h with
  | refl => exact Or.inl ⟨hx1, hx2, Relation.ReflTransGen.refl⟩
  | tail hrtg hstep ih =>
    rename_i m w'
    rcases ih with ⟨hm1, hm2, hchain⟩ | hfound
    · have hmc : C m.1 m.2 = NodeColour.RED := hexEmbed_true_elim hstep.1.2 hm1 hm2
      by_cases hw1 : w'.1 < N
      · have hw2 : w'.2 < N := hexEmbed_true_not_tg hstep.2.1.2 hw1
        have hwc : C w'.1 w'.2 = NodeColour.RED := hexEmbed_true_elim hstep.2.1.2 hw1 hw2
        exact Or.inl ⟨hw1, hw2, Relation.ReflTransGen.tail hchain
          ⟨⟨hm1, hm2, hmc⟩, ⟨hw1, hw2, hwc⟩, hstep.2.2⟩⟩
      · refine Or.inr ⟨m, ?_, hm2, hchain⟩
        have hadj := hstep.2.2
        rw [adjacent_iff] at hadj
        omega
    · exact Or.inr hfound

/-- A true win of the embedded Y board yields a RED chain across the hex
board. -/
theorem yWins_to_winChain_SECOND {N : ℕ} (hN : 2 ≤ N) {C : ℕ → ℕ → NodeColour}
    (h : yWins (2 * N - 1) (hexEmbed N C) true) : winChain N C Player.SECOND := by
  obtain ⟨x, y, z, hokx, hoky, hokz, hxi, hyj, hzd, hxy, hxz⟩ := h
  have hx1 : x.1 < N := by omega
  have hx2 : x.2 < N := hexEmbed_true_not_tg hokx.2 hx1
  have hxc : C x.1 x.2 = NodeColour.RED := hexEmbed_true_elim hokx.2 hx1 hx2
  rcases y_to_hex_red hN hxz hx1 hx2 with ⟨hz1, hz2, hchain⟩ | ⟨p, hp1, hp2, hchain⟩
  · have hz : z.1 = N - 1 := by omega
    exact ⟨x, z, ⟨hx1, hx2, hxc⟩, hxi, hz, hchain⟩
  · exact ⟨x, p, ⟨hx1, hx2, hxc⟩, hxi, hp1, hchain⟩

/-- A GREEN step of the hex board is a false step of the embedded Y
board. -/
theorem stepGreen_to_yStep {N : ℕ} {C : ℕ → ℕ → NodeColour} {p q : ℕ × ℕ}
    (h : stepCell N C NodeColour.GREEN p q) : yStep (2 * N - 1) (hexEmbed N C) false p q := by
  obtain ⟨⟨hp1, hp2, hpc⟩, ⟨hq1, hq2, hqc⟩, hadj⟩ := h
  exact ⟨⟨by omega, hexEmbed_green hp1 hp2 hpc⟩, ⟨by omega, hexEmbed_green hq1 hq2 hqc⟩, hadj⟩

/-- Walk up column N of the green cap towards row 0. -/
theorem tgWalkUp (N : ℕ) (C : ℕ → ℕ → NodeColour) (hN : 2 ≤ N) :
    ∀ i : ℕ, i + N ≤ 2 * N - 2 →
    Relation.ReflTransGen (yStep (2 * N - 1) (hexEmbed N C) false) (i, N) (0, N) := by
  intro i
  induction i with
  | zero => intro _; exact Relation.ReflTransGen.refl
  | succ k ih =>
    intro hi
    refine Relation.ReflTransGen.head ?_ (ih (by omega))
    refine ⟨⟨by show k + 1 + N < 2 * N - 1; omega, hexEmbed_tg (by omega) (le_refl N)⟩,
      ⟨by show k + N < 2 * N - 1; omega, hexEmbed_tg (by omega) (le_refl N)⟩, ?_⟩
    exact (adjacent_iff (k + 1) N k N).mpr (by omega)

/-- Walk along row 0 of the green cap towards the diagonal corner. -/
theorem tgWalkRight (N : ℕ) (C : ℕ → ℕ → NodeColour) (hN : 2 ≤ N) :
    ∀ k : ℕ, N + k ≤ 2 * N - 2 →
    Relation.ReflTransGen (yStep (2 * N - 1) (hexEmbed N C) false) (0, N) (0, N + k) := by
  intro k
  induction k with
  | zero => intro _; exact Relation.ReflTransGen.refl
  | succ m ih =>
    intro hk
    refine Relation.ReflTransGen.tail (ih (by omega)) ?_
    refine ⟨⟨by show 0 + (N + m) < 2 * N - 1; omega, hexEmbed_tg (by omega) (by omega)⟩,
      ⟨by show 0 + (N + (m + 1)) < 2 * N - 1; omega, hexEmbed_tg (by omega) (by omega)⟩, ?_⟩
    exact (adjacent_iff 0 (N + m) 0 (N + (m + 1))).mpr (by omega)

/-- A green cell on the far border of the rhombus has a neighbor in the
green cap. -/
theorem tgEntry (N : ℕ) (C : ℕ → ℕ → NodeColour) (hN : 2 ≤ N) {b : ℕ × ℕ}
    (hb2 : b.2 = N - 1) (hb1 : b.1 < N) (hbc : C b.1 b.2 = NodeColour.GREEN) :
    yStep (2 * N - 1) (hexEmbed N C) false b (min b.1 (N - 2), N) := by
  refine ⟨⟨by omega, hexEmbed_green hb1 (by omega) hbc⟩,
    ⟨by show min b.1 (N - 2) + N < 2 * N - 1; omega, hexEmbed_tg (by omega) (le_refl N)⟩, ?_⟩
  exact (adjacent_iff b.1 b.2 (min b.1 (N - 2)) N).mpr (by omega)

/-- A GREEN chain across the hex board yields a false win of the embedded
Y board. -/
theorem winChain_FIRST_to_yWins {N : ℕ} (hN : 2 ≤ N) {C : ℕ → ℕ → NodeColour}
    (h : winChain N C Player.FIRST) : yWins (2 * N - 1) (hexEmbed N C) false := by
  obtain ⟨a, b, hoka, hstart, hend, hrtg⟩ := h
  have hoka' : okCell N C NodeColour.GREEN a := hoka
  have hrtg' : Relation.ReflTransGen (stepCell N C NodeColour.GREEN) a b := hrtg
  have hokb : okCell N C NodeColour.GREEN b := rtg_stepCell_ok hoka' hrtg'
  have hend' : b.2 = N - 1 := hend
  have hchain : Relation.ReflTransGen (yStep (2 * N - 1) (hexEmbed N C) false) a b :=
    Relation.ReflTransGen.mono (fun p q hpq => stepGreen_to_yStep hpq) hrtg'
  have h1 : Relation.ReflTransGen (yStep (2 * N - 1) (hexEmbed N C) false) a
      (min b.1 (N - 2), N) :=
    Relation.ReflTransGen.tail hchain (tgEntry N C hN hend' hokb.1 hokb.2.2)
  have h2 : Relation.ReflTransGen (yStep (2 * N - 1) (hexEmbed N C) false) a (0, N) :=
    Relation.ReflTransGen.trans h1 (tgWalkUp N C hN (min b.1 (N - 2)) (by omega))
  have hstart' : a.2 = 0 := hstart
  obtain ⟨ha1, ha2, hac⟩ := hoka'
  refine ⟨(0, N), a, (0, N + (N - 2)),
    ⟨by show 0 + N < 2 * N - 1; omega, hexEmbed_tg (by omega) (le_refl N)⟩,
    ⟨by omega, hexEmbed_green ha1 ha2 hac⟩,
    ⟨by show 0 + (N + (N - 2)) < 2 * N - 1; omega, hexEmbed_tg (by omega) (by omega)⟩,
    rfl, hstart', by show 0 + (N + (N - 2)) = 2 * N - 1 - 1; omega,
    rtg_symm (yStep_symm (2 * N - 1) (hexEmbed N C) false) h2,
    tgWalkRight N C hN (N - 2) (by omega)⟩

/-- A false path of the embedded board starting inside the rhombus either
stays in the rhombus or produces a GREEN hex chain reaching the far
border. -/
theorem y_to_hex_green {N : ℕ} (hN : 2 ≤ N) {C : ℕ → ℕ → NodeColour}
    (hfull : ∀ r c : ℕ, r < N → c < N → C r c ≠ NodeColour.WHITE) {x w : ℕ × ℕ}
    (h : Relation.ReflTransGen (yStep (2 * N - 1) (hexEmbed N C) false) x w)
    (hx1 : x.1 < N) (hx2 : x.2 < N) :
    (w.1 < N ∧ w.2 < N ∧ Relation.ReflTransGen (stepCell N C NodeColour.GREEN) x w) ∨
    (∃ p : ℕ × ℕ, p.2 = N - 1 ∧ p.1 < N ∧
      Relation.ReflTransGen (stepCell N C NodeColour.GREEN) x p) := by
  induction h with
  | refl => exact Or.inl ⟨hx1, hx2, Relation.ReflTransGen.refl⟩
  | tail hrtg hstep ih =>
    rename_i m w'
    rcases ih with ⟨hm1, hm2, hchain⟩ | hfound
    · have hmc : C m.1 m.2 = NodeColour.GREEN :=
        hexEmbed_false_elim hstep.1.2 hm2 (hfull m.1 m.2 hm1 hm2)
      have hw1 : w'.1 < N := hexEmbed_false_lt hstep.2.1.2
      by_cases hw2 : w'.2 < N
      · have hwc : C w'.1 w'.2 = NodeColour.GREEN :=
          hexEmbed_false_elim hstep.2.1.2 hw2 (hfull w'.1 w'.2 hw1 hw2)
        exact Or.inl ⟨hw1, hw2, Relation.ReflTransGen.tail hchain
          ⟨⟨hm1, hm2, hmc⟩, ⟨hw1, hw2, hwc⟩, hstep.2.2⟩⟩
      · refine Or.inr ⟨m, ?_, hm1, hchain⟩
        have hadj := hstep.2.2
        rw [adjacent_iff] at hadj
        omega
    · exact Or.inr hfound

/-- A false win of the embedded Y board yields a GREEN chain across the
hex board. -/
theorem yWins_to_winChain_FIRST {N : ℕ} (hN : 2 ≤ N) {C : ℕ → ℕ → NodeColour}
    (hfull : ∀ r c : ℕ, r < N → c < N → C r c ≠ NodeColour.WHITE)
    (h : yWins (2 * N - 1) (hexEmbed N C) false) : winChain N C Player.FIRST := by
  obtain ⟨x, y, z, hokx, hoky, hokz, hxi, hyj, hzd, hxy, hxz⟩ := h
  have hy1 : y.1 < N := hexEmbed_false_lt hoky.2
  have hy2 : y.2 < N := by omega
  have hyc : C y.1 y.2 = NodeColour.GREEN :=
    hexEmbed_false_elim hoky.2 hy2 (hfull y.1 y.2 hy1 hy2)
  have hyz : Relation.ReflTransGen (yStep (2 * N - 1) (hexEmbed N C) false) y z :=
    Relation.ReflTransGen.trans
      (rtg_symm (yStep_symm (2 * N - 1) (hexEmbed N C) false) hxy) hxz
  rcases y_to_hex_green hN hfull hyz hy1 hy2 with ⟨hz1, hz2, hchain⟩ | ⟨p, hp2, hp1, hchain⟩
  · have hz : z.2 = N - 1 := by omega
    exact ⟨y, z, ⟨hy1, hy2, hyc⟩, hyj, hz, hchain⟩
  · exact ⟨y, p, ⟨hy1, hy2, hyc⟩, hyj, hp2, hchain⟩

/-- C2: on a fully coloured board of size 3 to 11 with no residual
traverse marks, exactly one of checkWin(FIRST) and checkWin(SECOND)
returns true: hex admits no draws and no double wins.  Proved by the
majority-reduction argument for the game of Y, with the hex board
embedded into the Y board of side 2N - 1 between a solid RED cap and a
solid GREEN cap. -/
theorem checkWin_no_draw (st : HexGame) (h3 : 3 ≤ st.m_size) (h11 : st.m_size ≤ 11)
    (hm : marksClear st)
    (hfull : ∀ r c : ℕ, r < st.m_size → c < st.m_size →
      (st.m_tree r c).colour ≠ NodeColour.WHITE) :
    ((checkWin st Player.FIRST).1 = true ∧ ¬(checkWin st Player.SECOND).1 = true) ∨
    ((checkWin st Player.SECOND).1 = true ∧ ¬(checkWin st Player.FIRST).1 = true) := by
  have hN : 2 ≤ st.m_size := by omega
  have hfull' : ∀ r c : ℕ, r < st.m_size → c < st.m_size →
      boardCtx st r c ≠ NodeColour.WHITE := hfull
  have hiffS : (checkWin st Player.SECOND).1 = true ↔
      yWins (2 * st.m_size - 1) (hexEmbed st.m_size (boardCtx st)) true := by
    constructor
    · intro h
      exact winChain_SECOND_to_yWins hN (checkWin_sound st Player.SECOND hm h)
    · intro h
      exact checkWin_complete st Player.SECOND hm hN (yWins_to_winChain_SECOND hN h)
  have hiffF : (checkWin st Player.FIRST).1 = true ↔
      yWins (2 * st.m_size - 1) (hexEmbed st.m_size (boardCtx st)) false := by
    constructor
    · intro h
      exact winChain_FIRST_to_yWins hN (checkWin_sound st Player.FIRST hm h)
    · intro h
      exact checkWin_complete st Player.FIRST hm hN (yWins_to_winChain_FIRST hN hfull' h)
  obtain ⟨hor, hand⟩ := yExactlyOne (2 * st.m_size - 1) (by omega)
    (hexEmbed st.m_size (boardCtx st))
  rcases hor with h | h
  · exact Or.inr ⟨hiffS.mpr h, fun hF => hand ⟨h, hiffF.mp hF⟩⟩
  · exact Or.inl ⟨hiffF.mpr h, fun hS => hand ⟨hiffS.mp hS, h⟩⟩

/-- Witness for the no-draw theorem on a concrete fully coloured 3 x 3
board. -/
theorem checkWin_no_draw_witness :
    ((checkWin wFull Player.FIRST).1 = true ∧ ¬(checkWin wFull Player.SECOND).1 = true) ∨
    ((checkWin wFull Player.SECOND).1 = true ∧ ¬(checkWin wFull Player.FIRST).1 = true) :=
  checkWin_no_draw wFull (by decide) (by decide) wFull_marksClear
    (by intro r c hr hc
        rw [wFull_m_size] at hr hc
        interval_cases r <;> interval_cases c <;> decide)
